import Mathlib

/-!
Verification of the `digittree` package (file `src/digittree/__init__.py`).

The Python code is shallowly embedded as follows:

* Python strings (identifiers / node prefixes) are `List Char`.
* `DigitTree` dataclass fields `childs` (an insertion-ordered `dict`),
  `prefix`, `terminal`, `used`, `covers` become the fields of the
  inductive `DigitTree` below; the dict is an insertion-ordered
  association list, since dict iteration order (insertion order) is
  observable through `sorted(self.childs, key=..., reverse=True)`
  (a stable sort) and through child creation.
* Exceptions (`ValueError` from `int(...)`, `AssertionError` from the
  two asserts, `IndexError` from indexing) become an `Except DTErr`
  result; mutation becomes returning the updated tree.
* Generators become eagerly computed `List` results (the enumeration is
  finite; laziness is not observable in any claim).
* Recursive methods are defined with an explicit fuel argument (so that
  they are structurally recursive and compute by `rfl` in the kernel);
  the fuel-free wrappers pass fuel that provably suffices, and
  fuel-irrelevance lemmas below show the fuel is a pure totality device.
* Characters: only ASCII is modelled.  Python's `int(c)` on a one-char
  string accepts exactly `'0'..'9'` among ASCII characters.
-/

/-- Errors surfaced by the Python code: `malformed` is the `ValueError`
raised by `int()` on a non-digit character; `structural` is the
`AssertionError` of `assert len(node) > len(self.prefix)` in `add_node`;
`lengthMismatch p n` is the `AssertionError` of
`assert len(self.prefix) == node_len` in `populate_used` (carrying the
offending node prefix and `node_len`); `indexError` is Python's
`IndexError` from string indexing (reachable only through direct calls
on inner nodes, never from the public entry points). -/
inductive DTErr : Type where
  | malformed : DTErr
  | structural : DTErr
  | lengthMismatch : List Char → Nat → DTErr
  | indexError : DTErr
deriving DecidableEq, Repr

/-- The digit trie.  Mirrors the Python dataclass `DigitTree` with fields
`childs` (digit → child, insertion-ordered), `prefix` (here `pfx`, since
`prefix` is reserved), `terminal`, `used`, `covers`. -/
inductive DigitTree : Type where
  | mk (childs : List (Nat × DigitTree)) (pfx : List Char)
       (terminal : Bool) (used : Nat) (covers : Nat) : DigitTree

/-- The `childs` field. -/
def DigitTree.childs : DigitTree → List (Nat × DigitTree)
  | .mk c _ _ _ _ => c

/-- The `prefix` field (named `pfx` here). -/
def DigitTree.pfx : DigitTree → List Char
  | .mk _ p _ _ _ => p

/-- The `terminal` field. -/
def DigitTree.terminal : DigitTree → Bool
  | .mk _ _ t _ _ => t

/-- The `used` field. -/
def DigitTree.used : DigitTree → Nat
  | .mk _ _ _ u _ => u

/-- The `covers` field. -/
def DigitTree.covers : DigitTree → Nat
  | .mk _ _ _ _ c => c

/-- A freshly constructed `DigitTree()` (all dataclass defaults). -/
def emptyTree : DigitTree := .mk [] [] false 0 0

/-- Embedding of the module-level function `common_prefix`. -/
def commonPfx : List Char → List Char → List Char
  | c1 :: t1, c2 :: t2 => if c1 = c2 then c1 :: commonPfx t1 t2 else []
  | _, _ => []

/-- Embedding of Python `int(c)` on a single (ASCII) character:
`some` digit value for `'0'..'9'`, otherwise a `ValueError`. -/
def charDigit (c : Char) : Option Nat :=
  if c.isDigit then some (c.toNat - 48) else none

/-- Embedding of Python `f'{d}'` for a digit value `d ∈ 0..9`. -/
def digitToChar (d : Nat) : Char := Char.ofNat (48 + d)

/-- Dict lookup `self.childs.get(d)`. -/
def lookupChild : List (Nat × DigitTree) → Nat → Option DigitTree
  | [], _ => none
  | (k, c) :: rest, d => if k = d then some c else lookupChild rest d

/-- Dict update of an existing key (in-place mutation of the child found
under `d`): the key keeps its position. -/
def updateChild : List (Nat × DigitTree) → Nat → DigitTree → List (Nat × DigitTree)
  | [], _, _ => []
  | (k, c) :: rest, d, c' => if k = d then (k, c') :: rest else (k, c) :: updateChild rest d c'

/-- Fueled embedding of `DigitTree.add_node`.  The Python body is

```
common = common_prefix(self.prefix, node)
if common == node:
    self.terminal = True
    return
assert len(node) > len(self.prefix)
next_digit = int(node[len(common)])
sub_tree = self.childs.get(next_digit)
if sub_tree is None:
    self.childs[next_digit] = self.__class__(prefix=f'{self.prefix}{next_digit}')
    sub_tree = self.childs[next_digit]
sub_tree.add_node(node=node)
```

At fuel 0 the (unreachable, see `addNodeF_irrel`) result is `.error .structural`. -/
def addNodeF : Nat → DigitTree → List Char → Except DTErr DigitTree
  | 0, _, _ => .error .structural
  | fuel + 1, .mk childs pfx term u v, node =>
    let common := commonPfx pfx node
    if common = node then .ok (.mk childs pfx true u v)
    else if node.length ≤ pfx.length then .error .structural
    else
      match node.get? common.length with
      | none => .error .indexError
      | some ch =>
        match charDigit ch with
        | none => .error .malformed
        | some d =>
          match lookupChild childs d with
          | some sub =>
            match addNodeF fuel sub node with
            | .ok sub' => .ok (.mk (updateChild childs d sub') pfx term u v)
            | .error e => .error e
          | none =>
            match addNodeF fuel (.mk [] (pfx ++ [digitToChar d]) false 0 0) node with
            | .ok sub' => .ok (.mk (childs ++ [(d, sub')]) pfx term u v)
            | .error e => .error e

mutual
/-- Number of nodes of the tree (totality measure for the fueled
functions; not part of the Python code). -/
def DigitTree.size : DigitTree → Nat
  | .mk childs _ _ _ _ => 1 + sizeChilds childs
/-- Sum of `DigitTree.size` over an association list of children. -/
def sizeChilds : List (Nat × DigitTree) → Nat
  | [] => 0
  | (_, c) :: rest => DigitTree.size c + sizeChilds rest
end

/-- `add_node` with sufficient fuel (each recursion step either descends
into an existing child or lengthens a fresh chain bounded by `node`). -/
def DigitTree.add_node (t : DigitTree) (node : List Char) : Except DTErr DigitTree :=
  addNodeF (t.size + node.length + 1) t node

/-- Embedding of the classmethod `DigitTree.from_list`. -/
def DigitTree.from_list (nodes : List (List Char)) : Except DTErr DigitTree :=
  nodes.foldlM (fun t n => t.add_node n) emptyTree

/-- Fueled embedding of `DigitTree.find_node`.  The Python body is

```
if self.prefix == node:
    if self.terminal:
        return self
    return None
if not self.childs:
    return None
next_digit = int(node[len(self.prefix)])
child = self.childs.get(next_digit)
if child is None:
    return None
return child.find_node(node=node)
```

`.ok (some n)` is returning the found node, `.ok none` is `None`. -/
def findNodeF : Nat → DigitTree → List Char → Except DTErr (Option DigitTree)
  | 0, _, _ => .ok none
  | fuel + 1, .mk childs pfx term u v, node =>
    if pfx = node then
      if term then .ok (some (.mk childs pfx term u v)) else .ok none
    else if childs.isEmpty then .ok none
    else
      match node.get? pfx.length with
      | none => .error .indexError
      | some ch =>
        match charDigit ch with
        | none => .error .malformed
        | some d =>
          match lookupChild childs d with
          | none => .ok none
          | some child => findNodeF fuel child node

/-- `find_node` with sufficient fuel (descends one existing child per step). -/
def DigitTree.find_node (t : DigitTree) (node : List Char) : Except DTErr (Option DigitTree) :=
  findNodeF t.size t node

mutual
/-- Embedding of `DigitTree.populate_used`.  The Python body is

```
if self.terminal:
    assert len(self.prefix) == node_len, f'...'
for child in self.childs.values():
    child.populate_used(node_len=node_len)
self.covers = 10 ** (node_len - len(self.prefix))
self.used = sum(child.used for child in self.childs.values())
if self.terminal:
    self.used += 1
```

Mutation becomes returning the updated tree; the first failing assert
(pre-order, children in insertion order) is the error returned.  Python's
`10 ** (node_len - len(prefix))` is a float when the exponent is
negative; here `Nat` subtraction truncates instead — on every tree built
through `add_node` a successful pass never reaches a node deeper than
`node_len` (terminal nodes of other depths fail the assert first, and
every childless non-root node is terminal), so the two agree whenever
the pass succeeds. -/
def DigitTree.populate_used : DigitTree → Nat → Except DTErr DigitTree
  | .mk childs pfx term _ _, node_len =>
    if term ∧ pfx.length ≠ node_len then .error (.lengthMismatch pfx node_len)
    else
      match populateChilds childs node_len with
      | .error e => .error e
      | .ok childs' =>
        .ok (.mk childs' pfx term
              ((childs'.map (fun p => p.2.used)).sum + if term then 1 else 0)
              (10 ^ (node_len - pfx.length)))
/-- The `for child in self.childs.values(): child.populate_used(...)` loop. -/
def populateChilds : List (Nat × DigitTree) → Nat → Except DTErr (List (Nat × DigitTree))
  | [], _ => .ok []
  | (d, c) :: rest, node_len =>
    match c.populate_used node_len with
    | .error e => .error e
    | .ok c' =>
      match populateChilds rest node_len with
      | .error e => .error e
      | .ok rest' => .ok ((d, c') :: rest')
end

/-- One step of the stable insertion sort realizing Python's
`sorted(self.childs, key=lambda child: self.childs[child].used, reverse=True)`:
`x` is placed behind every already-placed element whose `used` is `≥` its
own (so that, among equal `used`, dict insertion order is kept — Python's
`sorted` is stable and `reverse=True` does not reorder ties). -/
def insUsed (x : Nat × DigitTree) : List (Nat × DigitTree) → List (Nat × DigitTree)
  | [] => [x]
  | y :: rest => if y.2.used < x.2.used then x :: y :: rest else y :: insUsed x rest

/-- Python's `sorted(self.childs, key=..., reverse=True)` over the child
dict, as the corresponding list of (digit, child) pairs: a stable sort by
`used`, descending.  (The keys of a dict are distinct, so sorting the
pairs and looking each sorted key up in the dict are the same thing.) -/
def sortChilds (l : List (Nat × DigitTree)) : List (Nat × DigitTree) :=
  l.foldl (fun acc x => insUsed x acc) []

/-- Fueled decimal representation of a natural number (Python `str(n)`):
at least `n` recursive steps are available, which is plenty. -/
def natReprRec : Nat → Nat → List Char
  | 0, _ => []
  | fuel + 1, n =>
    if n < 10 then [digitToChar n]
    else natReprRec fuel (n / 10) ++ [digitToChar (n % 10)]

/-- Python `str(n)` for a natural number. -/
def natRepr (n : Nat) : List Char := natReprRec (n + 1) n

/-- Python `f'{n:0{width}}'`: decimal representation of `n` left-padded
with `'0'` to `width` characters (never truncated). -/
def padZeros (width : Nat) (n : Nat) : List Char :=
  List.replicate (width - (natRepr n).length) '0' ++ natRepr n

/-- Fueled embedding of `DigitTree._rec_availabe` (sic).  The Python body is

```
if not self.childs:
    return
childs = sorted(self.childs, key=lambda child: self.childs[child].used, reverse=True)
for child in childs:
    yield from self.childs[child]._rec_availabe()
for digit in range(10):
    if digit in self.childs:
        continue
    if not self.prefix and not digit:
        continue
    covers = self.childs[childs[0]].covers
    if covers == 1:
        number = f'{self.prefix}{digit}'
        yield number
    else:
        length = len(str(covers))-1
        yield from (f'{self.prefix}{digit}{i:0{length}}' for i in range(covers))
```

`sortChilds childs` is empty exactly when `childs` is, so matching on it
realizes both the `if not self.childs: return` guard and
`childs[0]`. -/
def recAvailabeF : Nat → DigitTree → List (List Char)
  | 0, _ => []
  | fuel + 1, .mk childs pfx _ _ _ =>
    match sortChilds childs with
    | [] => []
    | top :: rest =>
      (((top :: rest).map (fun c => recAvailabeF fuel c.2)).flatten)
      ++ ((List.range 10).map (fun digit =>
            if (lookupChild childs digit).isSome then []
            else if pfx = [] ∧ digit = 0 then []
            else if top.2.covers = 1 then [pfx ++ [digitToChar digit]]
            else (List.range top.2.covers).map
                   (fun i => pfx ++ digitToChar digit ::
                               padZeros ((natRepr top.2.covers).length - 1) i))).flatten

/-- `_rec_availabe` with sufficient fuel (descends one child per step). -/
def DigitTree.rec_availabe (t : DigitTree) : List (List Char) :=
  recAvailabeF t.size t

/-- The default seed: `seed = seed or '1000'`. -/
def defaultSeed : List Char := ['1', '0', '0', '0']

/-- Embedding of `DigitTree.available`.  The Python body is

```
seed = seed or '1000'
if not self.childs and seed:
    self.add_node(node=seed)
self.populate_used(node_len=len(seed))
yield from self._rec_availabe()
```

The result carries the mutated tree (after the possible seed insertion
and the accounting pass) together with the yielded values.  `seed or
'1000'` replaces both `None` and the empty string by `'1000'`, after
which `seed` is always truthy. -/
def DigitTree.available (t : DigitTree) (seed : Option (List Char)) :
    Except DTErr (DigitTree × List (List Char)) :=
  let s := match seed with
           | none => defaultSeed
           | some l => if l = [] then defaultSeed else l
  match (if t.childs.isEmpty then t.add_node s else .ok t) with
  | .error e => .error e
  | .ok t1 =>
    match t1.populate_used s.length with
    | .error e => .error e
    | .ok t2 => .ok (t2, t2.rec_availabe)

mutual
/-- Specification helper (not a Python method): the list of identifiers
registered in the tree — the prefixes of all terminal nodes, in pre-order
with children in insertion order.  (The tests compute the same set via
`tree.traverse()`.) -/
def DigitTree.terminals : DigitTree → List (List Char)
  | .mk childs pfx term _ _ => (if term then [pfx] else []) ++ terminalsChilds childs
/-- `terminals` over an association list of children. -/
def terminalsChilds : List (Nat × DigitTree) → List (List Char)
  | [] => []
  | (_, c) :: rest => c.terminals ++ terminalsChilds rest
end

/-- All characters are ASCII decimal digits. -/
def digitsOnly (s : List Char) : Bool := s.all Char.isDigit

/-- No two keys of the association list are equal (any list standing for
a Python dict satisfies this). -/
def noDupKeys : List (Nat × DigitTree) → Bool
  | [] => true
  | (d, _) :: rest => !(rest.any (fun p => p.1 == d)) && noDupKeys rest

mutual
/-- Specification helper: the structural well-formedness every tree built
through `add_node` from the root enjoys — digit-only prefixes, child keys
distinct, each child keyed `d` carrying prefix `parent.pfx ++ [digit d]`
with `d ≤ 9`, and every childless non-root node terminal. -/
def DigitTree.invB : DigitTree → Bool
  | .mk childs pfx _ _ _ => digitsOnly pfx && noDupKeys childs && invChilds childs pfx
/-- `invB` over an association list of children with the parent prefix. -/
def invChilds : List (Nat × DigitTree) → List Char → Bool
  | [], _ => true
  | (d, c) :: rest, pfx =>
    decide (d ≤ 9) && decide (c.pfx = pfx ++ [digitToChar d]) &&
    (!c.childs.isEmpty || c.terminal) && c.invB && invChilds rest pfx
end

/-- The digit value of an ASCII digit character (left inverse of
`digitToChar` on digit strings). -/
def charToDigit (c : Char) : Nat := c.toNat - 48

/-- Numeric value of a digit string (most significant first). -/
def digitListToNat (s : List Char) : Nat :=
  s.foldl (fun acc c => acc * 10 + charToDigit c) 0

/-- The canonical `k`-character digit string of `i` (for `i < 10^k`):
reference enumeration of fixed-width digit strings. -/
def toDigitList : Nat → Nat → List Char
  | 0, _ => []
  | k + 1, i => toDigitList k (i / 10) ++ [digitToChar (i % 10)]

/-- `IsNodeOf n t`: `n` is one of the nodes of the tree `t` (reflexive,
descending through children). -/
inductive IsNodeOf : DigitTree → DigitTree → Prop where
  | refl (t : DigitTree) : IsNodeOf t t
  | child {n c t : DigitTree} (d : Nat) (hmem : (d, c) ∈ t.childs) (h : IsNodeOf n c) :
      IsNodeOf n t

/-- The per-node facts established by a successful accounting pass with
length `L`: `covers = 10^(L - len(prefix))`, `used` counts the registered
identifiers of the subtree, and `used` equals the sum of the children's
`used` plus one if the node is terminal. -/
def PopNode (L : Nat) (nd : DigitTree) : Prop :=
  nd.covers = 10 ^ (L - nd.pfx.length) ∧
  nd.used = nd.terminals.length ∧
  nd.used = (nd.childs.map (fun p => p.2.used)).sum + (if nd.terminal = true then 1 else 0)

/-- Relation between a tree and its accounted copy: everything except the
cached `used`/`covers` fields is unchanged, and every node of the copy
satisfies `PopNode`. -/
def PopRel (L : Nat) (t t' : DigitTree) : Prop :=
  t'.pfx = t.pfx ∧ t'.terminal = t.terminal ∧ t'.terminals = t.terminals ∧
  (t.invB = true → t'.invB = true) ∧ (t'.childs = [] ↔ t.childs = []) ∧
  (∀ nd, IsNodeOf nd t' → PopNode L nd)

/-- The ordering the enumeration sorts by: `used` descending. -/
def usedGE (a b : Nat × DigitTree) : Prop := b.2.used ≤ a.2.used

/-- Extract the tree from a successful result (defaulting to the empty
tree), used to name concrete example trees. -/
def getOk (e : Except DTErr DigitTree) : DigitTree :=
  match e with
  | .ok t => t
  | .error _ => emptyTree

/-- Extract the yielded identifier list from a successful `available`
call (defaulting to the empty list). -/
def availList (r : Except DTErr (DigitTree × List (List Char))) : List (List Char) :=
  match r with
  | .ok p => p.2
  | .error _ => []

/-- The full length-`L` keyspace of valid identifiers (no leading zero),
as the image of the numeric interval `[10^(L-1), 10^L)` under the
`L`-digit decimal rendering. -/
def keyspace (L : Nat) : Finset (List Char) :=
  (Finset.Ico (10 ^ (L - 1)) (10 ^ L)).image (toDigitList L)

/-- The singleton trie over the identifier 1. -/
def c5t : DigitTree := getOk (DigitTree.from_list [['1']])

/-- The same trie accounted for length 1. -/
def c5t' : DigitTree := getOk (c5t.populate_used 1)

/-- A non-empty trie whose identifier has length 1 (not 4). -/
def c10t : DigitTree := getOk (DigitTree.from_list [['2']])

/-- The empty trie after the default seed 1000 has been inserted. -/
def c10t1 : DigitTree := getOk (emptyTree.add_node defaultSeed)

/-- That trie accounted for length 4. -/
def c10t2 : DigitTree := getOk (c10t1.populate_used 4)

/-- The trie of scenario 1: identifiers 1, 2, 3, 4. -/
def treeC1 : DigitTree := getOk (DigitTree.from_list [['1'], ['2'], ['3'], ['4']])

/-- A trie with two equally-used sibling branches, the branch keyed 2
inserted before the branch keyed 1. -/
def treeC2 : DigitTree := getOk (DigitTree.from_list [['2', '1'], ['1', '1']])

/-- Same trie after the accounting pass for length 2. -/
def treeC2p : DigitTree := getOk (treeC2.populate_used 2)

/-- The availability stream claimed by the specification for
`available(seed="170")` on the empty trie: 171-179, the ten-blocks under
`1d` for d in {0,2,3,4,5,6,8,9}, then the hundred-blocks under 2-9. -/
def claimedC3 : List (List Char) :=
  ((List.range 9).map (fun i => ['1', '7', digitToChar (i + 1)]))
  ++ (([0, 2, 3, 4, 5, 6, 8, 9] : List Nat).map (fun d =>
        (List.range 10).map (fun i => ['1', digitToChar d, digitToChar i]))).flatten
  ++ (((List.range 8).map (fun d =>
        (List.range 100).map (fun i => digitToChar (d + 2) :: padZeros 2 i))).flatten)

/-- The stream the code actually produces for `available(seed="170")` on
the empty trie: the ten-block under prefix `11` is also yielded. -/
def actualC3 : List (List Char) :=
  ((List.range 9).map (fun i => ['1', '7', digitToChar (i + 1)]))
  ++ (([0, 1, 2, 3, 4, 5, 6, 8, 9] : List Nat).map (fun d =>
        (List.range 10).map (fun i => ['1', digitToChar d, digitToChar i]))).flatten
  ++ (((List.range 8).map (fun d =>
        (List.range 100).map (fun i => digitToChar (d + 2) :: padZeros 2 i))).flatten)

/-- The values yielded by `available(seed="170")` on the empty trie. -/
def availListC3 : List (List Char) :=
  availList (emptyTree.available (some ['1', '7', '0']))

/-- A trie with siblings of different `used` counts: the branch keyed 1
holds two identifiers, the branch keyed 2 holds one. -/
def c7t : DigitTree := getOk (DigitTree.from_list [['1', '1'], ['1', '2'], ['2', '1']])

/-- The same trie after the accounting pass for length 2. -/
def c7t' : DigitTree := getOk (c7t.populate_used 2)

/-- Its root child keyed 1 (used = 2). -/
def c7c1 : DigitTree := (lookupChild c7t'.childs 1).getD emptyTree

/-- Its root child keyed 2 (used = 1). -/
def c7c2 : DigitTree := (lookupChild c7t'.childs 2).getD emptyTree

/-! ### Basic lemmas: size, induction principle -/

theorem DigitTree.childs_mk (childs : List (Nat × DigitTree)) (pfx : List Char)
    (term : Bool) (u v : Nat) : (DigitTree.mk childs pfx term u v).childs = childs := rfl

theorem DigitTree.pfx_mk (childs : List (Nat × DigitTree)) (pfx : List Char)
    (term : Bool) (u v : Nat) : (DigitTree.mk childs pfx term u v).pfx = pfx := rfl

theorem DigitTree.terminal_mk (childs : List (Nat × DigitTree)) (pfx : List Char)
    (term : Bool) (u v : Nat) : (DigitTree.mk childs pfx term u v).terminal = term := rfl

theorem DigitTree.used_mk (childs : List (Nat × DigitTree)) (pfx : List Char)
    (term : Bool) (u v : Nat) : (DigitTree.mk childs pfx term u v).used = u := rfl

theorem DigitTree.covers_mk (childs : List (Nat × DigitTree)) (pfx : List Char)
    (term : Bool) (u v : Nat) : (DigitTree.mk childs pfx term u v).covers = v := rfl

theorem DigitTree.size_def (childs : List (Nat × DigitTree)) (pfx : List Char)
    (term : Bool) (u v : Nat) :
    (DigitTree.mk childs pfx term u v).size = 1 + sizeChilds childs := by
  simp [DigitTree.size]

theorem DigitTree.size_pos (t : DigitTree) : 0 < t.size := by
  cases t with
  | mk childs pfx term u v => rw [DigitTree.size_def]; omega

theorem sizeChilds_le_of_mem {d : Nat} {c : DigitTree} {l : List (Nat × DigitTree)}
    (h : (d, c) ∈ l) : c.size ≤ sizeChilds l := by
  induction l with
  | nil => cases h
  | cons hd tl ih =>
    obtain ⟨k, c'⟩ := hd
    rcases List.mem_cons.mp h with heq | hmem
    · cases heq; simp [sizeChilds]
    · have := ih hmem
      simp only [sizeChilds]
      omega

theorem DigitTree.size_lt_of_mem {d : Nat} {c : DigitTree} {t : DigitTree}
    (h : (d, c) ∈ t.childs) : c.size < t.size := by
  cases t with
  | mk childs pfx term u v =>
    have h1 : c.size ≤ sizeChilds childs := sizeChilds_le_of_mem h
    rw [DigitTree.size_def]
    omega

/-- Induction over the nodes of a tree: to prove `P t` one may assume
`P c` for every child `c` of `t`. -/
theorem DigitTree.nodeInduction {P : DigitTree → Prop}
    (step : ∀ t : DigitTree, (∀ d c, (d, c) ∈ t.childs → P c) → P t) :
    ∀ t, P t := by
  suffices H : ∀ n t, DigitTree.size t ≤ n → P t by
    intro t; exact H t.size t le_rfl
  intro n
  induction n with
  | zero => intro t ht; exact absurd ht (by have := t.size_pos; omega)
  | succ n ih =>
    intro t ht
    apply step
    intro d c hm
    apply ih
    have := DigitTree.size_lt_of_mem hm
    omega

/-! ### Character and digit lemmas -/

theorem Char.isDigit_iff_toNat {c : Char} :
    c.isDigit = true ↔ 48 ≤ c.toNat ∧ c.toNat ≤ 57 := by
  unfold Char.isDigit
  simp only [Bool.and_eq_true, decide_eq_true_eq]
  exact Iff.rfl

theorem digitToChar_toNat {d : Nat} (h : d ≤ 9) : (digitToChar d).toNat = 48 + d := by
  interval_cases d <;> decide

theorem digitToChar_isDigit {d : Nat} (h : d ≤ 9) : (digitToChar d).isDigit = true := by
  interval_cases d <;> decide

theorem digitToChar_inj {d1 d2 : Nat} (h1 : d1 ≤ 9) (h2 : d2 ≤ 9)
    (h : digitToChar d1 = digitToChar d2) : d1 = d2 := by
  have e1 := digitToChar_toNat h1
  have e2 := digitToChar_toNat h2
  rw [h] at e1
  omega

theorem charToDigit_digitToChar {d : Nat} (h : d ≤ 9) : charToDigit (digitToChar d) = d := by
  unfold charToDigit
  rw [digitToChar_toNat h]
  omega

theorem charToDigit_le_nine {c : Char} (h : c.isDigit = true) : charToDigit c ≤ 9 := by
  obtain ⟨h1, h2⟩ := Char.isDigit_iff_toNat.mp h
  unfold charToDigit
  omega

theorem digitToChar_charToDigit {c : Char} (h : c.isDigit = true) :
    digitToChar (charToDigit c) = c := by
  obtain ⟨h1, h2⟩ := Char.isDigit_iff_toNat.mp h
  unfold digitToChar charToDigit
  have : 48 + (c.toNat - 48) = c.toNat := by omega
  rw [this, Char.ofNat_toNat]

theorem charDigit_eq_some {c : Char} (h : c.isDigit = true) :
    charDigit c = some (charToDigit c) := by
  unfold charDigit charToDigit
  rw [h]
  simp

theorem charDigit_eq_none {c : Char} (h : ¬ c.isDigit = true) : charDigit c = none := by
  unfold charDigit
  simp [h]

theorem digitToChar_eq_zero_iff {d : Nat} (h : d ≤ 9) :
    digitToChar d = '0' ↔ d = 0 := by
  constructor
  · intro he
    have h1 := digitToChar_toNat h
    rw [he] at h1
    have h0 : ('0' : Char).toNat = 48 := rfl
    omega
  · intro he; subst he; decide

/-! ### digitsOnly lemmas -/

theorem digitsOnly_iff {s : List Char} :
    digitsOnly s = true ↔ ∀ c ∈ s, c.isDigit = true := by
  unfold digitsOnly
  simp [List.all_eq_true]

theorem digitsOnly_append {s1 s2 : List Char} :
    digitsOnly (s1 ++ s2) = true ↔ digitsOnly s1 = true ∧ digitsOnly s2 = true := by
  simp only [digitsOnly_iff]
  constructor
  · intro h
    exact ⟨fun c hc => h c (List.mem_append_left _ hc),
           fun c hc => h c (List.mem_append_right _ hc)⟩
  · rintro ⟨h1, h2⟩ c hc
    rcases List.mem_append.mp hc with h | h
    · exact h1 c h
    · exact h2 c h

theorem digitsOnly_of_isPre {p s : List Char} (hp : p <+: s)
    (h : digitsOnly s = true) : digitsOnly p = true := by
  obtain ⟨r, rfl⟩ := hp
  exact (digitsOnly_append.mp h).1

/-! ### commonPfx lemmas -/

theorem commonPfx_nil_left (s : List Char) : commonPfx [] s = [] := by
  cases s <;> rfl

theorem commonPfx_of_isPre {p s : List Char} (h : p <+: s) : commonPfx p s = p := by
  induction p generalizing s with
  | nil => exact commonPfx_nil_left s
  | cons c t ih =>
    obtain ⟨r, rfl⟩ := h
    have hstep : commonPfx (c :: t) (c :: t ++ r) = c :: commonPfx t (t ++ r) := by
      simp [commonPfx]
    rw [hstep, ih ⟨r, rfl⟩]

theorem commonPfx_isPre_right (p s : List Char) : commonPfx p s <+: s := by
  induction p generalizing s with
  | nil => rw [commonPfx_nil_left]; exact List.nil_prefix
  | cons c t ih =>
    cases s with
    | nil => exact List.nil_prefix
    | cons c' t' =>
      simp only [commonPfx]
      by_cases hc : c = c'
      · subst hc
        rw [if_pos rfl]
        obtain ⟨r, hr⟩ := ih t'
        exact ⟨r, by rw [List.cons_append, hr]⟩
      · rw [if_neg hc]
        exact List.nil_prefix

/-- The next character of `node` after an exhausted common prefix. -/
theorem get?_append_cons (p s : List Char) (c : Char) :
    (p ++ c :: s).get? p.length = some c := by
  induction p with
  | nil => rfl
  | cons x t ih => simpa using ih

/-! ### lookupChild / updateChild / noDupKeys lemmas -/

theorem lookupChild_mem {l : List (Nat × DigitTree)} {d : Nat} {c : DigitTree}
    (h : lookupChild l d = some c) : (d, c) ∈ l := by
  induction l with
  | nil => cases h
  | cons hd tl ih =>
    obtain ⟨k, x⟩ := hd
    by_cases hk : k = d
    · subst hk
      simp only [lookupChild, if_pos rfl] at h
      cases h
      exact List.mem_cons_self _ _
    · simp only [lookupChild, if_neg hk] at h
      exact List.mem_cons_of_mem _ (ih h)

theorem lookupChild_none_iff {l : List (Nat × DigitTree)} {d : Nat} :
    lookupChild l d = none ↔ d ∉ l.map Prod.fst := by
  induction l with
  | nil => simp [lookupChild]
  | cons hd tl ih =>
    obtain ⟨k, x⟩ := hd
    by_cases hk : k = d
    · subst hk
      simp [lookupChild]
    · simp only [lookupChild, if_neg hk, List.map_cons, List.mem_cons]
      rw [ih]
      constructor
      · intro h hc
        rcases hc with hc | hc
        · exact hk hc.symm
        · exact h hc
      · intro h
        exact fun hc => h (Or.inr hc)

theorem lookupChild_isSome_iff {l : List (Nat × DigitTree)} {d : Nat} :
    (lookupChild l d).isSome = true ↔ d ∈ l.map Prod.fst := by
  rcases hl : lookupChild l d with _ | c
  · simpa using lookupChild_none_iff.mp hl
  · simp only [Option.isSome_some, true_iff]
    by_contra hc
    rw [← lookupChild_none_iff] at hc
    rw [hl] at hc
    cases hc

theorem noDupKeys_pairwise {l : List (Nat × DigitTree)} :
    noDupKeys l = true ↔ l.Pairwise (fun a b => a.1 ≠ b.1) := by
  induction l with
  | nil => simp [noDupKeys]
  | cons hd tl ih =>
    obtain ⟨k, x⟩ := hd
    rw [List.pairwise_cons, ← ih]
    simp only [noDupKeys, Bool.and_eq_true, Bool.not_eq_true', List.any_eq_false, beq_iff_eq]
    constructor
    · rintro ⟨h1, h2⟩
      exact ⟨fun b hb he => (h1 b hb) he.symm, h2⟩
    · rintro ⟨h1, h2⟩
      exact ⟨fun b hb he => (h1 b hb) he.symm, h2⟩

/-- Splitting view of a successful dict lookup followed by an in-place
update: the association list decomposes around the first (and, for dup
free keys, only) occurrence of the key. -/
theorem lookupChild_split {l : List (Nat × DigitTree)} {d : Nat} {c : DigitTree}
    (h : lookupChild l d = some c) (c' : DigitTree) :
    ∃ A B, l = A ++ (d, c) :: B ∧ d ∉ A.map Prod.fst ∧
      updateChild l d c' = A ++ (d, c') :: B := by
  induction l with
  | nil => cases h
  | cons hd tl ih =>
    obtain ⟨k, x⟩ := hd
    by_cases hk : k = d
    · subst hk
      simp only [lookupChild, if_pos rfl] at h
      cases h
      exact ⟨[], tl, rfl, by simp, by simp [updateChild]⟩
    · simp only [lookupChild, if_neg hk] at h
      obtain ⟨A, B, hl, hnA, hu⟩ := ih h
      refine ⟨(k, x) :: A, B, by simp [hl], ?_, ?_⟩
      · simp only [List.map_cons, List.mem_cons]
        rintro (hc | hc)
        · exact hk hc.symm
        · exact hnA hc
      · simp [updateChild, if_neg hk, hu]

theorem updateChild_map_fst (l : List (Nat × DigitTree)) (d : Nat) (c' : DigitTree) :
    (updateChild l d c').map Prod.fst = l.map Prod.fst := by
  induction l with
  | nil => rfl
  | cons hd tl ih =>
    obtain ⟨k, x⟩ := hd
    by_cases hk : k = d
    · simp [updateChild, hk]
    · simp [updateChild, if_neg hk, ih]

/-! ### terminals lemmas -/

theorem DigitTree.terminals_def (childs : List (Nat × DigitTree)) (pfx : List Char)
    (term : Bool) (u v : Nat) :
    (DigitTree.mk childs pfx term u v).terminals =
      (if term then [pfx] else []) ++ terminalsChilds childs := by
  simp [DigitTree.terminals]

theorem terminalsChilds_append (A B : List (Nat × DigitTree)) :
    terminalsChilds (A ++ B) = terminalsChilds A ++ terminalsChilds B := by
  induction A with
  | nil => rfl
  | cons hd tl ih =>
    obtain ⟨k, x⟩ := hd
    simp [terminalsChilds, ih]

theorem mem_terminalsChilds {s : List Char} {l : List (Nat × DigitTree)} :
    s ∈ terminalsChilds l ↔ ∃ d c, (d, c) ∈ l ∧ s ∈ c.terminals := by
  induction l with
  | nil => simp [terminalsChilds]
  | cons hd tl ih =>
    obtain ⟨k, x⟩ := hd
    simp only [terminalsChilds, List.mem_append, ih, List.mem_cons]
    constructor
    · rintro (h | ⟨d, c, hm, hs⟩)
      · exact ⟨k, x, Or.inl rfl, h⟩
      · exact ⟨d, c, Or.inr hm, hs⟩
    · rintro ⟨d, c, hm | hm, hs⟩
      · cases hm; exact Or.inl hs
      · exact Or.inr ⟨d, c, hm, hs⟩

theorem mem_terminals {s : List Char} {t : DigitTree} :
    s ∈ t.terminals ↔ (t.terminal = true ∧ s = t.pfx) ∨
      ∃ d c, (d, c) ∈ t.childs ∧ s ∈ c.terminals := by
  cases t with
  | mk childs pfx term u v =>
    rw [DigitTree.terminals_def]
    simp only [List.mem_append, mem_terminalsChilds, DigitTree.childs, DigitTree.pfx,
      DigitTree.terminal]
    cases term <;> simp

/-! ### invB lemmas -/

theorem DigitTree.invB_def (childs : List (Nat × DigitTree)) (pfx : List Char)
    (term : Bool) (u v : Nat) :
    (DigitTree.mk childs pfx term u v).invB =
      (digitsOnly pfx && noDupKeys childs && invChilds childs pfx) := by
  simp [DigitTree.invB]

theorem invChilds_iff {l : List (Nat × DigitTree)} {pfx : List Char} :
    invChilds l pfx = true ↔ ∀ d c, (d, c) ∈ l →
      d ≤ 9 ∧ c.pfx = pfx ++ [digitToChar d] ∧
      (c.childs = [] → c.terminal = true) ∧ c.invB = true := by
  induction l with
  | nil => simp [invChilds]
  | cons hd tl ih =>
    obtain ⟨k, x⟩ := hd
    simp only [invChilds, Bool.and_eq_true, decide_eq_true_eq, ih, List.mem_cons,
      Bool.or_eq_true, Bool.not_eq_true', List.isEmpty_eq_false]
    constructor
    · rintro ⟨⟨⟨⟨h1, h2⟩, h3⟩, h4⟩, h5⟩ d c hm
      rcases hm with hm | hm
      · cases hm
        refine ⟨h1, h2, ?_, h4⟩
        intro hc
        rcases h3 with h | h
        · exact absurd hc h
        · exact h
      · exact h5 d c hm
    · intro h
      obtain ⟨h1, h2, h3, h4⟩ := h k x (Or.inl rfl)
      refine ⟨⟨⟨⟨h1, h2⟩, ?_⟩, h4⟩, fun d c hm => h d c (Or.inr hm)⟩
      by_cases hc : x.childs = []
      · exact Or.inr (h3 hc)
      · exact Or.inl hc

theorem invB_iff {t : DigitTree} :
    t.invB = true ↔ digitsOnly t.pfx = true ∧ noDupKeys t.childs = true ∧
      ∀ d c, (d, c) ∈ t.childs →
        d ≤ 9 ∧ c.pfx = t.pfx ++ [digitToChar d] ∧
        (c.childs = [] → c.terminal = true) ∧ c.invB = true := by
  cases t with
  | mk childs pfx term u v =>
    rw [DigitTree.invB_def]
    simp only [Bool.and_eq_true, DigitTree.pfx, DigitTree.childs]
    rw [invChilds_iff]
    tauto

/-! ### sortChilds lemmas: permutation, sortedness, stability -/

theorem insUsed_perm (x : Nat × DigitTree) (l : List (Nat × DigitTree)) :
    (insUsed x l).Perm (x :: l) := by
  induction l with
  | nil => exact List.Perm.refl _
  | cons y rest ih =>
    simp only [insUsed]
    by_cases hy : y.2.used < x.2.used
    · rw [if_pos hy]
    · rw [if_neg hy]
      exact (ih.cons y).trans (List.Perm.swap x y rest)

theorem sortChilds_foldl_perm (l : List (Nat × DigitTree)) :
    ∀ acc, (l.foldl (fun a x => insUsed x a) acc).Perm (acc ++ l) := by
  induction l with
  | nil => intro acc; simp
  | cons x xs ih =>
    intro acc
    simp only [List.foldl_cons]
    refine (ih (insUsed x acc)).trans ?_
    refine (List.Perm.append_right xs (insUsed_perm x acc)).trans ?_
    simpa using List.perm_middle.symm

theorem sortChilds_perm (l : List (Nat × DigitTree)) : (sortChilds l).Perm l := by
  simpa using sortChilds_foldl_perm l []

theorem mem_sortChilds {e : Nat × DigitTree} {l : List (Nat × DigitTree)} :
    e ∈ sortChilds l ↔ e ∈ l := (sortChilds_perm l).mem_iff

theorem sortChilds_eq_nil_iff {l : List (Nat × DigitTree)} :
    sortChilds l = [] ↔ l = [] := by
  constructor
  · intro h
    have := (sortChilds_perm l).length_eq
    rw [h] at this
    exact List.eq_nil_of_length_eq_zero this.symm
  · intro h; subst h; rfl

theorem insUsed_pairwise {x : Nat × DigitTree} {l : List (Nat × DigitTree)}
    (h : l.Pairwise usedGE) : (insUsed x l).Pairwise usedGE := by
  induction l with
  | nil => simp [insUsed, List.pairwise_cons]
  | cons y rest ih =>
    rw [List.pairwise_cons] at h
    obtain ⟨hy, hrest⟩ := h
    simp only [insUsed]
    by_cases hlt : y.2.used < x.2.used
    · rw [if_pos hlt]
      rw [List.pairwise_cons]
      refine ⟨?_, List.pairwise_cons.mpr ⟨hy, hrest⟩⟩
      intro b hb
      rcases List.mem_cons.mp hb with hb | hb
      · subst hb; exact le_of_lt hlt
      · exact le_trans (hy b hb) (le_of_lt hlt)
    · rw [if_neg hlt]
      rw [List.pairwise_cons]
      refine ⟨?_, ih hrest⟩
      intro b hb
      have hb' : b ∈ x :: rest := (insUsed_perm x rest).mem_iff.mp hb
      rcases List.mem_cons.mp hb' with hb' | hb'
      · subst hb'; exact le_of_not_lt hlt
      · exact hy b hb'

theorem sortChilds_pairwise (l : List (Nat × DigitTree)) :
    (sortChilds l).Pairwise usedGE := by
  suffices H : ∀ acc, acc.Pairwise usedGE →
      (l.foldl (fun a x => insUsed x a) acc).Pairwise usedGE from
    H [] (List.Pairwise.nil)
  induction l with
  | nil => intro acc h; simpa using h
  | cons x xs ih =>
    intro acc h
    simp only [List.foldl_cons]
    exact ih _ (insUsed_pairwise h)

theorem insUsed_filter {x : Nat × DigitTree} {l : List (Nat × DigitTree)} {u : Nat}
    (h : l.Pairwise usedGE) :
    (insUsed x l).filter (fun p => p.2.used == u) =
      (if x.2.used = u then l.filter (fun p => p.2.used == u) ++ [x]
       else l.filter (fun p => p.2.used == u)) := by
  induction l with
  | nil =>
    by_cases hx : x.2.used = u
    · simp [insUsed, List.filter, hx]
    · have hxb : (x.2.used == u) = false := by simpa using hx
      simp [insUsed, List.filter, hxb, hx]
  | cons y rest ih =>
    rw [List.pairwise_cons] at h
    obtain ⟨hy, hrest⟩ := h
    simp only [insUsed]
    by_cases hlt : y.2.used < x.2.used
    · rw [if_pos hlt]
      by_cases hx : x.2.used = u
      · subst hx
        have hyu : (y.2.used == x.2.used) = false := by
          simp only [beq_eq_false_iff_ne, ne_eq]
          omega
        have hfr : rest.filter (fun p => p.2.used == x.2.used) = [] := by
          rw [List.filter_eq_nil_iff]
          intro a ha
          have hle := hy a ha
          simp only [usedGE] at hle
          simp only [beq_iff_eq]
          omega
        simp [List.filter, hyu, hfr]
      · have hxb : (x.2.used == u) = false := by simpa using hx
        simp [List.filter, hxb, hx]
    · rw [if_neg hlt]
      rw [List.filter_cons, List.filter_cons]
      rw [ih hrest]
      by_cases hx : x.2.used = u
      · rw [if_pos hx, if_pos hx]
        by_cases hyu : (y.2.used == u) = true
        · simp [hyu]
        · simp only [Bool.not_eq_true] at hyu
          simp [hyu]
      · rw [if_neg hx, if_neg hx]

theorem sortChilds_filter (l : List (Nat × DigitTree)) (u : Nat) :
    (sortChilds l).filter (fun p => p.2.used == u) =
      l.filter (fun p => p.2.used == u) := by
  suffices H : ∀ acc, acc.Pairwise usedGE →
      (l.foldl (fun a x => insUsed x a) acc).filter (fun p => p.2.used == u) =
        acc.filter (fun p => p.2.used == u) ++ l.filter (fun p => p.2.used == u) by
    simpa using H [] List.Pairwise.nil
  induction l with
  | nil => intro acc h; simp
  | cons x xs ih =>
    intro acc h
    simp only [List.foldl_cons]
    rw [ih _ (insUsed_pairwise h), insUsed_filter h, List.filter_cons]
    by_cases hx : x.2.used = u
    · rw [if_pos hx]
      have hxb : (x.2.used == u) = true := by simpa using hx
      simp [hxb]
    · rw [if_neg hx]
      have hxb : (x.2.used == u) = false := by simpa using hx
      simp [hxb]

/-- In a list sorted by `used` descending, an element with strictly
greater `used` splits the list before one with smaller `used`. -/
theorem sorted_split {l : List (Nat × DigitTree)} (hp : l.Pairwise usedGE)
    {e1 e2 : Nat × DigitTree} (h1 : e1 ∈ l) (h2 : e2 ∈ l)
    (hlt : e2.2.used < e1.2.used) :
    ∃ A B C, l = A ++ e1 :: B ++ e2 :: C := by
  induction l with
  | nil => cases h1
  | cons h t ih =>
    rw [List.pairwise_cons] at hp
    obtain ⟨hh, ht⟩ := hp
    rcases List.mem_cons.mp h1 with he1 | he1
    · subst he1
      have h2t : e2 ∈ t := by
        rcases List.mem_cons.mp h2 with he2 | he2
        · subst he2; omega
        · exact he2
      obtain ⟨B, C, hBC⟩ := List.append_of_mem h2t
      exact ⟨[], B, C, by rw [hBC]; rfl⟩
    · have h2t : e2 ∈ t := by
        rcases List.mem_cons.mp h2 with he2 | he2
        · subst he2
          have := hh e1 he1
          simp only [usedGE] at this
          omega
        · exact he2
      obtain ⟨A, B, C, hABC⟩ := ih ht he1 h2t
      exact ⟨h :: A, B, C, by rw [hABC]; rfl⟩

/-! ### Fuel irrelevance: the fuel is a pure totality device -/

theorem findNodeF_irrel : ∀ (f1 f2 : Nat) (t : DigitTree) (node : List Char),
    t.size ≤ f1 → t.size ≤ f2 → findNodeF f1 t node = findNodeF f2 t node := by
  intro f1
  induction f1 with
  | zero =>
    intro f2 t node h1 h2
    exact absurd h1 (by have := t.size_pos; omega)
  | succ n ih =>
    intro f2 t node h1 h2
    obtain ⟨m, rfl⟩ : ∃ m, f2 = m + 1 := by
      have := t.size_pos
      cases f2 with
      | zero => omega
      | succ m => exact ⟨m, rfl⟩
    cases t with
    | mk childs pfx term u v =>
      simp only [findNodeF]
      by_cases hp : pfx = node
      · simp [hp]
      · simp only [if_neg hp]
        by_cases hce : childs.isEmpty = true
        · simp [hce]
        · simp only [hce, if_neg Bool.false_ne_true]
          split
          · rfl
          · split
            · rfl
            · split
              · rfl
              · rename_i child hl
                have hlt : child.size < (DigitTree.mk childs pfx term u v).size :=
                  DigitTree.size_lt_of_mem (t := .mk childs pfx term u v)
                    (lookupChild_mem hl)
                rw [DigitTree.size_def] at hlt
                rw [DigitTree.size_def] at h1
                rw [DigitTree.size_def] at h2
                exact ih m child node (by omega) (by omega)

theorem recAvailabeF_irrel : ∀ (f1 f2 : Nat) (t : DigitTree),
    t.size ≤ f1 → t.size ≤ f2 → recAvailabeF f1 t = recAvailabeF f2 t := by
  intro f1
  induction f1 with
  | zero =>
    intro f2 t h1 h2
    exact absurd h1 (by have := t.size_pos; omega)
  | succ n ih =>
    intro f2 t h1 h2
    obtain ⟨m, rfl⟩ : ∃ m, f2 = m + 1 := by
      have := t.size_pos
      cases f2 with
      | zero => omega
      | succ m => exact ⟨m, rfl⟩
    cases t with
    | mk childs pfx term u v =>
      simp only [recAvailabeF]
      split
      · rfl
      · rename_i top rest hs
        have hmem : ∀ c, c ∈ top :: rest → c ∈ childs := by
          intro c hc
          rw [← hs] at hc
          exact mem_sortChilds.mp hc
        congr 1
        congr 1
        apply List.map_congr_left
        intro c hc
        have hpair : (c.1, c.2) ∈ (DigitTree.mk childs pfx term u v).childs := by
          rw [Prod.mk.eta]
          exact hmem c hc
        have hlt := DigitTree.size_lt_of_mem hpair
        rw [DigitTree.size_def] at hlt
        rw [DigitTree.size_def] at h1
        rw [DigitTree.size_def] at h2
        exact ih m c.2 (by omega) (by omega)

theorem addNodeF_irrel_fresh : ∀ (f1 f2 : Nat) (pfx : List Char) (term : Bool)
    (u v : Nat) (node : List Char),
    node.length - pfx.length < f1 → node.length - pfx.length < f2 →
    addNodeF f1 (.mk [] pfx term u v) node = addNodeF f2 (.mk [] pfx term u v) node := by
  intro f1
  induction f1 with
  | zero =>
    intro f2 pfx term u v node h1 h2
    omega
  | succ n ih =>
    intro f2 pfx term u v node h1 h2
    obtain ⟨m, rfl⟩ : ∃ m, f2 = m + 1 := by
      cases f2 with
      | zero => omega
      | succ m => exact ⟨m, rfl⟩
    simp only [addNodeF]
    by_cases hc : commonPfx pfx node = node
    · simp [hc]
    · simp only [if_neg hc]
      by_cases hlen : node.length ≤ pfx.length
      · simp [hlen]
      · simp only [if_neg hlen]
        split
        · rfl
        · split
          · rfl
          · rename_i x1 ch hch x2 d hcd
            simp only [lookupChild]
            have hrec := ih m (pfx ++ [digitToChar d]) false 0 0 node
              (by simp only [List.length_append, List.length_cons, List.length_nil]; omega)
              (by simp only [List.length_append, List.length_cons, List.length_nil]; omega)
            rw [hrec]

theorem addNodeF_irrel : ∀ (f1 f2 : Nat) (t : DigitTree) (node : List Char),
    t.size + node.length ≤ f1 → t.size + node.length ≤ f2 →
    addNodeF f1 t node = addNodeF f2 t node := by
  intro f1
  induction f1 with
  | zero =>
    intro f2 t node h1 h2
    exact absurd h1 (by have := t.size_pos; omega)
  | succ n ih =>
    intro f2 t node h1 h2
    obtain ⟨m, rfl⟩ : ∃ m, f2 = m + 1 := by
      have := t.size_pos
      cases f2 with
      | zero => omega
      | succ m => exact ⟨m, rfl⟩
    cases t with
    | mk childs pfx term u v =>
      simp only [addNodeF]
      by_cases hc : commonPfx pfx node = node
      · simp [hc]
      · simp only [if_neg hc]
        by_cases hlen : node.length ≤ pfx.length
        · simp [hlen]
        · simp only [if_neg hlen]
          split
          · rfl
          · split
            · rfl
            · split
              · rename_i sub hl
                have hlt := DigitTree.size_lt_of_mem
                  (t := .mk childs pfx term u v) (lookupChild_mem hl)
                rw [DigitTree.size_def] at hlt
                rw [DigitTree.size_def] at h1
                rw [DigitTree.size_def] at h2
                rw [ih m sub node (by omega) (by omega)]
              · rename_i x1 ch hg x2 d hcd x3 hl
                rw [DigitTree.size_def] at h1
                rw [DigitTree.size_def] at h2
                rw [addNodeF_irrel_fresh n m (pfx ++ [digitToChar d]) false 0 0 node
                  (by simp only [List.length_append, List.length_cons, List.length_nil]; omega)
                  (by simp only [List.length_append, List.length_cons, List.length_nil]; omega)]

/-! ### Wrapper characterizations -/

theorem add_node_eq_addNodeF {t : DigitTree} {node : List Char} {f : Nat}
    (h : t.size + node.length ≤ f) : t.add_node node = addNodeF f t node :=
  addNodeF_irrel _ _ t node (by omega) h

theorem find_node_eq_findNodeF {t : DigitTree} {node : List Char} {f : Nat}
    (h : t.size ≤ f) : t.find_node node = findNodeF f t node :=
  findNodeF_irrel _ _ t node le_rfl h

theorem rec_availabe_eq_recAvailabeF {t : DigitTree} {f : Nat}
    (h : t.size ≤ f) : t.rec_availabe = recAvailabeF f t :=
  recAvailabeF_irrel _ _ t le_rfl h

/-! ### noDupKeys and terminals under the invariant -/

theorem noDupKeys_iff_nodup {l : List (Nat × DigitTree)} :
    noDupKeys l = true ↔ (l.map Prod.fst).Nodup := by
  rw [noDupKeys_pairwise, List.Nodup, List.pairwise_map]

theorem terminalsChilds_eq_flatten (l : List (Nat × DigitTree)) :
    terminalsChilds l = (l.map (fun p => p.2.terminals)).flatten := by
  induction l with
  | nil => rfl
  | cons hd tl ih =>
    obtain ⟨k, x⟩ := hd
    simp [terminalsChilds, ih]

/-- Every identifier registered in a well-formed tree extends the tree's
prefix and consists of digits; if it lies under the child keyed `d`, its
character at the branching position is the digit `d`. -/
theorem terminals_isPre : ∀ t : DigitTree, t.invB = true →
    ∀ s ∈ t.terminals, t.pfx <+: s ∧ digitsOnly s = true := by
  intro t
  induction t using DigitTree.nodeInduction with
  | step t ih =>
    intro hinv s hs
    obtain ⟨hdig, hnd, hch⟩ := invB_iff.mp hinv
    rcases mem_terminals.mp hs with ⟨hterm, rfl⟩ | ⟨d, c, hm, hsc⟩
    · exact ⟨List.prefix_rfl, hdig⟩
    · obtain ⟨hd9, hcpfx, hcot, hcinv⟩ := hch d c hm
      obtain ⟨hpre, hdig'⟩ := ih d c hm hcinv s hsc
      rw [hcpfx] at hpre
      exact ⟨((List.prefix_append t.pfx [digitToChar d]).trans hpre), hdig'⟩

/-- An identifier registered below the child keyed `d` carries the digit
character of `d` at the branching position. -/
theorem terminals_child_get : ∀ (t : DigitTree), t.invB = true →
    ∀ d c, (d, c) ∈ t.childs → ∀ s ∈ c.terminals,
      s.get? t.pfx.length = some (digitToChar d) ∧ t.pfx.length < s.length := by
  intro t hinv d c hm s hs
  obtain ⟨hdig, hnd, hch⟩ := invB_iff.mp hinv
  obtain ⟨hd9, hcpfx, hcot, hcinv⟩ := hch d c hm
  obtain ⟨hpre, hdig'⟩ := terminals_isPre c hcinv s hs
  rw [hcpfx] at hpre
  obtain ⟨r, hr⟩ := hpre
  rw [List.append_assoc] at hr
  constructor
  · rw [← hr]
    exact get?_append_cons t.pfx r (digitToChar d)
  · rw [← hr]
    simp

/-- The registered identifiers of a well-formed tree are pairwise
distinct. -/
theorem terminals_nodup : ∀ t : DigitTree, t.invB = true → t.terminals.Nodup := by
  intro t
  induction t using DigitTree.nodeInduction with
  | step t ih =>
    intro hinv
    obtain ⟨hdig, hnd, hch⟩ := invB_iff.mp hinv
    have hflat : (terminalsChilds t.childs).Nodup := by
      rw [terminalsChilds_eq_flatten, List.nodup_flatten]
      constructor
      · intro l hl
        rw [List.mem_map] at hl
        obtain ⟨⟨d, c⟩, hm, rfl⟩ := hl
        exact ih d c hm (hch d c hm).2.2.2
      · rw [List.pairwise_map]
        have hndk := noDupKeys_pairwise.mp hnd
        refine hndk.imp_of_mem ?_
        intro a b ha hb hne
        intro s hsa hsb
        obtain ⟨ha1, _⟩ := terminals_child_get t hinv a.1 a.2 (by rw [Prod.mk.eta]; exact ha) s hsa
        obtain ⟨hb1, _⟩ := terminals_child_get t hinv b.1 b.2 (by rw [Prod.mk.eta]; exact hb) s hsb
        rw [ha1] at hb1
        have hinj := digitToChar_inj (hch a.1 a.2 (by rw [Prod.mk.eta]; exact ha)).1
          (hch b.1 b.2 (by rw [Prod.mk.eta]; exact hb)).1 (by injection hb1)
        exact hne hinj
    cases t with
    | mk childs pfx term u v =>
      rw [DigitTree.terminals_def]
      cases term with
      | false => simpa using hflat
      | true =>
        show (pfx :: terminalsChilds childs).Nodup
        rw [List.nodup_cons]
        refine ⟨?_, hflat⟩
        intro hmem
        rw [mem_terminalsChilds] at hmem
        obtain ⟨d, c, hm, hs⟩ := hmem
        obtain ⟨_, hlen⟩ := terminals_child_get (.mk childs pfx true u v) hinv d c hm pfx hs
        simp only [DigitTree.pfx] at hlen
        omega

/-- A well-formed tree whose root is childless-implies-terminal registers
at least one identifier. -/
theorem terminals_ne_nil : ∀ t : DigitTree, t.invB = true →
    (t.childs = [] → t.terminal = true) → t.terminals ≠ [] := by
  intro t
  induction t using DigitTree.nodeInduction with
  | step t ih =>
    intro hinv hcot
    obtain ⟨hdig, hnd, hch⟩ := invB_iff.mp hinv
    by_cases hterm : t.terminal = true
    · intro hnil
      have : t.pfx ∈ t.terminals := mem_terminals.mpr (Or.inl ⟨hterm, rfl⟩)
      rw [hnil] at this
      cases this
    · have hne : t.childs ≠ [] := fun hc => hterm (hcot hc)
      obtain ⟨⟨d, c⟩, hm⟩ := List.exists_mem_of_ne_nil t.childs hne
      obtain ⟨hd9, hcpfx, hcot', hcinv⟩ := hch d c hm
      have hcne := ih d c hm hcinv hcot'
      obtain ⟨s, hs⟩ := List.exists_mem_of_ne_nil c.terminals hcne
      intro hnil
      have : s ∈ t.terminals := mem_terminals.mpr (Or.inr ⟨d, c, hm, hs⟩)
      rw [hnil] at this
      cases this

/-! ### add_node correctness -/

/-- Inserting `node` into a fresh (childless, non-terminal) node whose
prefix is a prefix of `node` builds the chain of one node per remaining
digit, ending in a terminal node: the subtree registers exactly `node`. -/
theorem addNodeF_fresh_ok : ∀ (fuel : Nat) (pfx node : List Char),
    pfx <+: node → digitsOnly node = true → node.length - pfx.length < fuel →
    ∃ u, addNodeF fuel (.mk [] pfx false 0 0) node = .ok u ∧
      u.pfx = pfx ∧ u.invB = true ∧ u.terminals = [node] ∧
      (u.childs = [] → u.terminal = true) := by
  intro fuel
  induction fuel with
  | zero => intro pfx node hpre hdig hfuel; omega
  | succ n ih =>
    intro pfx node hpre hdig hfuel
    by_cases hpn : pfx = node
    · subst hpn
      have hcp : commonPfx pfx pfx = pfx := commonPfx_of_isPre List.prefix_rfl
      refine ⟨.mk [] pfx true 0 0, ?_, rfl, ?_, ?_, fun _ => rfl⟩
      · simp only [addNodeF]
        rw [if_pos hcp]
      · rw [DigitTree.invB_def]
        simp only [Bool.and_eq_true]
        exact ⟨⟨hdig, rfl⟩, rfl⟩
      · rw [DigitTree.terminals_def]
        rfl
    · obtain ⟨r, hr⟩ := hpre
      cases r with
      | nil => exact absurd (by simpa using hr) hpn
      | cons c s =>
        subst hr
        have hcin : c.isDigit = true :=
          digitsOnly_iff.mp hdig c (List.mem_append_right pfx (List.mem_cons_self c s))
        have hcd : charDigit c = some (charToDigit c) := charDigit_eq_some hcin
        have hd9 : charToDigit c ≤ 9 := charToDigit_le_nine hcin
        have hdc : digitToChar (charToDigit c) = c := digitToChar_charToDigit hcin
        have hcp : commonPfx pfx (pfx ++ c :: s) = pfx :=
          commonPfx_of_isPre ⟨c :: s, rfl⟩
        have hlen : ¬ (pfx ++ c :: s).length ≤ pfx.length := by simp
        have hpre' : pfx ++ [digitToChar (charToDigit c)] <+: pfx ++ c :: s := by
          rw [hdc]
          exact ⟨s, by simp⟩
        have hfuel' : (pfx ++ c :: s).length - (pfx ++ [digitToChar (charToDigit c)]).length < n := by
          simp only [List.length_append, List.length_cons, List.length_nil]
          simp only [List.length_append, List.length_cons] at hfuel
          omega
        obtain ⟨u, hu, hupfx, huinv, huterm, hucot⟩ :=
          ih (pfx ++ [digitToChar (charToDigit c)]) (pfx ++ c :: s) hpre' hdig hfuel'
        refine ⟨.mk [(charToDigit c, u)] pfx false 0 0, ?_, rfl, ?_, ?_, ?_⟩
        · simp only [addNodeF]
          rw [hcp]
          rw [if_neg hpn, if_neg hlen]
          rw [get?_append_cons]
          simp only [hcd, lookupChild, hu]
          rfl
        · rw [DigitTree.invB_def]
          simp only [Bool.and_eq_true]
          refine ⟨⟨digitsOnly_of_isPre ⟨c :: s, rfl⟩ hdig, rfl⟩, ?_⟩
          rw [invChilds_iff]
          intro e x hex
          rcases List.mem_cons.mp hex with hex | hex
          · cases hex
            exact ⟨hd9, hupfx, hucot, huinv⟩
          · cases hex
        · rw [DigitTree.terminals_def]
          simp [terminalsChilds, huterm]
        · intro hcon
          cases hcon

/-- Inserting a digit string that extends the node's prefix into a
well-formed tree succeeds, preserves well-formedness and the prefix, and
registers exactly the new identifier in addition to the old ones. -/
theorem addNodeF_ok : ∀ (fuel : Nat) (t : DigitTree) (node : List Char),
    t.invB = true → t.pfx <+: node → digitsOnly node = true →
    t.size + (node.length - t.pfx.length) ≤ fuel →
    ∃ t', addNodeF fuel t node = .ok t' ∧
      t'.pfx = t.pfx ∧ t'.invB = true ∧
      (t'.childs = [] → t'.terminal = true) ∧
      (∀ s, s ∈ t'.terminals ↔ s ∈ t.terminals ∨ s = node) := by
  intro fuel
  induction fuel with
  | zero =>
    intro t node _ _ _ hf
    have := t.size_pos
    omega
  | succ n ih =>
    intro t node hinv hpre hdig hfuel
    cases t with
    | mk childs pfx term u v =>
      simp only [DigitTree.pfx_mk] at hpre hfuel ⊢
      rw [DigitTree.size_def] at hfuel
      by_cases hpn : pfx = node
      · subst hpn
        have hcp : commonPfx pfx pfx = pfx := commonPfx_of_isPre List.prefix_rfl
        refine ⟨.mk childs pfx true u v, ?_, rfl, ?_, fun _ => rfl, ?_⟩
        · simp only [addNodeF]
          rw [if_pos hcp]
        · rw [DigitTree.invB_def] at hinv ⊢
          exact hinv
        · intro s
          cases term with
          | false =>
            rw [DigitTree.terminals_def, DigitTree.terminals_def]
            show s ∈ pfx :: terminalsChilds childs ↔ s ∈ terminalsChilds childs ∨ s = pfx
            rw [List.mem_cons]
            tauto
          | true =>
            rw [DigitTree.terminals_def]
            show s ∈ pfx :: terminalsChilds childs ↔ s ∈ pfx :: terminalsChilds childs ∨ s = pfx
            rw [List.mem_cons]
            tauto
      · obtain ⟨r, hr⟩ := hpre
        cases r with
        | nil => exact absurd (by simpa using hr) hpn
        | cons c s0 =>
          subst hr
          have hcin : c.isDigit = true :=
            digitsOnly_iff.mp hdig c (List.mem_append_right pfx (List.mem_cons_self c s0))
          have hcd : charDigit c = some (charToDigit c) := charDigit_eq_some hcin
          have hd9 : charToDigit c ≤ 9 := charToDigit_le_nine hcin
          have hdc : digitToChar (charToDigit c) = c := digitToChar_charToDigit hcin
          have hcp : commonPfx pfx (pfx ++ c :: s0) = pfx :=
            commonPfx_of_isPre ⟨c :: s0, rfl⟩
          have hlen : ¬ (pfx ++ c :: s0).length ≤ pfx.length := by simp
          obtain ⟨hdigp, hnd, hch⟩ := invB_iff.mp hinv
          simp only [DigitTree.childs_mk, DigitTree.pfx_mk] at hdigp hnd hch
          cases hlk : lookupChild childs (charToDigit c) with
          | some sub =>
            have hmem : (charToDigit c, sub) ∈ childs := lookupChild_mem hlk
            obtain ⟨hsd9, hspfx, hscot, hsinv⟩ := hch (charToDigit c) sub hmem
            have hspre : sub.pfx <+: pfx ++ c :: s0 := by
              rw [hspfx, hdc]
              exact ⟨s0, by simp⟩
            have hsize := sizeChilds_le_of_mem hmem
            have hfuel' : sub.size + ((pfx ++ c :: s0).length - sub.pfx.length) ≤ n := by
              rw [hspfx]
              simp only [List.length_append, List.length_cons, List.length_nil]
              simp only [List.length_append, List.length_cons] at hfuel
              omega
            obtain ⟨t'', hrec, hpfx'', hinv'', hcot'', hiff''⟩ :=
              ih sub (pfx ++ c :: s0) hsinv hspre hdig hfuel'
            refine ⟨.mk (updateChild childs (charToDigit c) t'') pfx term u v, ?_, rfl,
              ?_, ?_, ?_⟩
            · simp only [addNodeF]
              rw [hcp]
              rw [if_neg hpn, if_neg hlen]
              rw [get?_append_cons]
              simp only [hcd, hlk, hrec]
            · obtain ⟨A, B, hAB, hdA, hupd⟩ := lookupChild_split hlk t''
              rw [DigitTree.invB_def]
              simp only [Bool.and_eq_true]
              refine ⟨⟨hdigp, ?_⟩, ?_⟩
              · rw [noDupKeys_iff_nodup, updateChild_map_fst]
                exact noDupKeys_iff_nodup.mp hnd
              · rw [invChilds_iff]
                intro e x hex
                rw [hupd] at hex
                rcases List.mem_append.mp hex with hex | hex
                · exact hch e x (by rw [hAB]; exact List.mem_append_left _ hex)
                · rcases List.mem_cons.mp hex with hex | hex
                  · cases hex
                    refine ⟨hsd9, ?_, hcot'', hinv''⟩
                    rw [hpfx'', hspfx]
                  · exact hch e x
                      (by rw [hAB]; exact List.mem_append_right _ (List.mem_cons_of_mem _ hex))
            · intro hcon
              obtain ⟨A, B, hAB, hdA, hupd⟩ := lookupChild_split hlk t''
              rw [DigitTree.childs] at hcon
              rw [hupd] at hcon
              exact absurd hcon (by simp)
            · intro s
              obtain ⟨A, B, hAB, hdA, hupd⟩ := lookupChild_split hlk t''
              rw [DigitTree.terminals_def, DigitTree.terminals_def]
              rw [hupd, hAB]
              rw [terminalsChilds_append, terminalsChilds_append]
              simp only [terminalsChilds, List.mem_append, List.mem_cons]
              have hiffs := hiff'' s
              constructor
              · rintro (h | h | h | h)
                · exact Or.inl (Or.inl h)
                · exact Or.inl (Or.inr (Or.inl h))
                · rcases hiffs.mp h with h2 | h2
                  · exact Or.inl (Or.inr (Or.inr (Or.inl h2)))
                  · exact Or.inr h2
                · exact Or.inl (Or.inr (Or.inr (Or.inr h)))
              · rintro ((h | h | h | h) | h)
                · exact Or.inl h
                · exact Or.inr (Or.inl h)
                · exact Or.inr (Or.inr (Or.inl (hiffs.mpr (Or.inl h))))
                · exact Or.inr (Or.inr (Or.inr h))
                · exact Or.inr (Or.inr (Or.inl (hiffs.mpr (Or.inr h))))
          | none =>
            have hpre' : pfx ++ [digitToChar (charToDigit c)] <+: pfx ++ c :: s0 := by
              rw [hdc]
              exact ⟨s0, by simp⟩
            have hfuel' : (pfx ++ c :: s0).length - (pfx ++ [digitToChar (charToDigit c)]).length < n := by
              simp only [List.length_append, List.length_cons, List.length_nil]
              simp only [List.length_append, List.length_cons] at hfuel
              omega
            obtain ⟨u', hu', hupfx, huinv, huterm, hucot⟩ :=
              addNodeF_fresh_ok n (pfx ++ [digitToChar (charToDigit c)]) (pfx ++ c :: s0)
                hpre' hdig hfuel'
            refine ⟨.mk (childs ++ [(charToDigit c, u')]) pfx term u v, ?_, rfl, ?_, ?_, ?_⟩
            · simp only [addNodeF]
              rw [hcp]
              rw [if_neg hpn, if_neg hlen]
              rw [get?_append_cons]
              simp only [hcd, hlk, hu']
            · rw [DigitTree.invB_def]
              simp only [Bool.and_eq_true]
              refine ⟨⟨hdigp, ?_⟩, ?_⟩
              · rw [noDupKeys_iff_nodup]
                rw [List.map_append]
                rw [List.nodup_append]
                refine ⟨noDupKeys_iff_nodup.mp hnd, by simp, ?_⟩
                intro a ha hb
                simp only [List.map_cons, List.map_nil, List.mem_singleton] at hb
                subst hb
                exact (lookupChild_none_iff.mp hlk) ha
              · rw [invChilds_iff]
                intro e x hex
                rcases List.mem_append.mp hex with hex | hex
                · exact hch e x hex
                · rcases List.mem_cons.mp hex with hex | hex
                  · cases hex
                    exact ⟨hd9, hupfx, hucot, huinv⟩
                  · cases hex
            · intro hcon
              rw [DigitTree.childs] at hcon
              exact absurd hcon (by simp)
            · intro s
              rw [DigitTree.terminals_def, DigitTree.terminals_def]
              rw [terminalsChilds_append]
              simp only [terminalsChilds, List.mem_append, List.mem_cons, huterm,
                List.mem_singleton, List.not_mem_nil, or_false]
              tauto

/-! ### populate_used correctness -/

theorem lookupChild_of_mem_nodup {l : List (Nat × DigitTree)} {d : Nat} {c : DigitTree}
    (hnd : noDupKeys l = true) (hm : (d, c) ∈ l) : lookupChild l d = some c := by
  induction l with
  | nil => cases hm
  | cons hd tl ih =>
    obtain ⟨k, x⟩ := hd
    rw [noDupKeys_pairwise, List.pairwise_cons] at hnd
    obtain ⟨hk, htl⟩ := hnd
    rcases List.mem_cons.mp hm with hm | hm
    · cases hm
      simp [lookupChild]
    · have hkd : ¬ k = d := hk (d, c) hm
      simp only [lookupChild, if_neg hkd]
      exact ih (noDupKeys_pairwise.mpr htl) hm

theorem isNodeOf_inv {nd t : DigitTree} (h : IsNodeOf nd t) :
    nd = t ∨ ∃ d c, (d, c) ∈ t.childs ∧ IsNodeOf nd c := by
  cases h with
  | refl => exact Or.inl rfl
  | child d hmem hi => exact Or.inr ⟨d, _, hmem, hi⟩

theorem populate_aux : ∀ N : Nat,
    (∀ t : DigitTree, t.size ≤ N → ∀ L : Nat, (∀ s ∈ t.terminals, s.length = L) →
      ∃ t', t.populate_used L = .ok t' ∧ PopRel L t t') ∧
    (∀ l : List (Nat × DigitTree), sizeChilds l ≤ N → ∀ L : Nat,
      (∀ s ∈ terminalsChilds l, s.length = L) →
      ∃ l', populateChilds l L = .ok l' ∧
        l'.map Prod.fst = l.map Prod.fst ∧
        terminalsChilds l' = terminalsChilds l ∧
        (∀ d c', (d, c') ∈ l' → ∃ c, (d, c) ∈ l ∧ PopRel L c c') ∧
        (l'.map (fun p => p.2.used)).sum = (terminalsChilds l).length ∧
        (l' = [] ↔ l = []) ∧
        (∀ pfx, invChilds l pfx = true → invChilds l' pfx = true)) := by
  intro N
  induction N with
  | zero =>
    constructor
    · intro t ht
      exact absurd ht (by have := t.size_pos; omega)
    · intro l hl L hlen
      cases l with
      | nil =>
        refine ⟨[], rfl, rfl, rfl, ?_, rfl, by simp, fun _ h => h⟩
        intro d c' h
        cases h
      | cons hd tl =>
        obtain ⟨k, x⟩ := hd
        have := x.size_pos
        simp only [sizeChilds] at hl
        omega
  | succ N ihN =>
    have treePart : ∀ t : DigitTree, t.size ≤ N + 1 → ∀ L : Nat,
        (∀ s ∈ t.terminals, s.length = L) →
        ∃ t', t.populate_used L = .ok t' ∧ PopRel L t t' := by
      intro t ht L hlen
      cases t with
      | mk childs pfx term u v =>
        rw [DigitTree.size_def] at ht
        have hklen : ∀ s ∈ terminalsChilds childs, s.length = L := by
          intro s hs
          apply hlen
          rw [DigitTree.terminals_def]
          exact List.mem_append_right _ hs
        obtain ⟨l', hpc, hkeys, hterms, hrel, hsum, hnil, hinvc⟩ :=
          ihN.2 childs (by omega) L hklen
        have hassert : ¬ (term = true ∧ pfx.length ≠ L) := by
          rintro ⟨hterm, hne⟩
          apply hne
          apply hlen
          rw [DigitTree.terminals_def, hterm]
          exact List.mem_append_left _ (List.mem_singleton.mpr rfl)
        refine ⟨.mk l' pfx term ((l'.map (fun p => p.2.used)).sum +
            if term = true then 1 else 0) (10 ^ (L - pfx.length)), ?_, ?_⟩
        · simp only [DigitTree.populate_used]
          rw [if_neg hassert, hpc]
        · refine ⟨rfl, rfl, ?_, ?_, ?_, ?_⟩
          · rw [DigitTree.terminals_def, DigitTree.terminals_def, hterms]
          · intro hinv
            rw [DigitTree.invB_def] at hinv ⊢
            simp only [Bool.and_eq_true] at hinv ⊢
            refine ⟨⟨hinv.1.1, ?_⟩, hinvc pfx hinv.2⟩
            rw [noDupKeys_iff_nodup, hkeys, ← noDupKeys_iff_nodup]
            exact hinv.1.2
          · simp only [DigitTree.childs_mk]
            exact hnil
          · intro nd hnd
            rcases isNodeOf_inv hnd with rfl | ⟨d, c', hm, hnd'⟩
            · refine ⟨rfl, ?_, rfl⟩
              simp only [DigitTree.used_mk, DigitTree.terminals_def, DigitTree.childs_mk,
                DigitTree.terminal_mk]
              rw [hsum, ← hterms]
              cases term with
              | false => simp
              | true => simp [Nat.add_comm]
            · simp only [DigitTree.childs_mk] at hm
              obtain ⟨c, hcm, hrelc⟩ := hrel d c' hm
              exact hrelc.2.2.2.2.2 nd hnd'
    refine ⟨treePart, ?_⟩
    intro l hl L hlen
    induction l with
    | nil =>
      refine ⟨[], rfl, rfl, rfl, ?_, rfl, by simp, fun _ h => h⟩
      intro d c' h
      cases h
    | cons hd tl ihtl =>
      obtain ⟨k, x⟩ := hd
      simp only [sizeChilds] at hl
      have hxlen : ∀ s ∈ x.terminals, s.length = L := by
        intro s hs
        apply hlen
        simp only [terminalsChilds, List.mem_append]
        exact Or.inl hs
      have htllen : ∀ s ∈ terminalsChilds tl, s.length = L := by
        intro s hs
        apply hlen
        simp only [terminalsChilds, List.mem_append]
        exact Or.inr hs
      obtain ⟨x', hx', hrelx⟩ := treePart x (by omega) L hxlen
      obtain ⟨tl', htl', hkeys, hterms, hrel, hsum, hnil, hinvc⟩ := ihtl (by omega) htllen
      refine ⟨(k, x') :: tl', ?_, ?_, ?_, ?_, ?_, ?_, ?_⟩
      · simp only [populateChilds, hx', htl']
      · simp [hkeys]
      · simp only [terminalsChilds, hterms, hrelx.2.2.1]
      · intro d c' hm
        rcases List.mem_cons.mp hm with hm | hm
        · cases hm
          exact ⟨x, List.mem_cons_self _ _, hrelx⟩
        · obtain ⟨c, hcm, hrelc⟩ := hrel d c' hm
          exact ⟨c, List.mem_cons_of_mem _ hcm, hrelc⟩
      · simp only [List.map_cons, List.sum_cons, terminalsChilds, List.length_append, hsum]
        have hxused : x'.used = x.terminals.length := by
          have hself : PopNode L x' := hrelx.2.2.2.2.2 x' (IsNodeOf.refl x')
          rw [hself.2.1, hrelx.2.2.1]
        rw [hxused]
      · simp
      · intro pfx hinv
        rw [invChilds_iff] at hinv ⊢
        intro d c' hm
        rcases List.mem_cons.mp hm with hm | hm
        · cases hm
          obtain ⟨h1, h2, h3, h4⟩ := hinv k x (List.mem_cons_self _ _)
          refine ⟨h1, ?_, ?_, hrelx.2.2.2.1 h4⟩
          · rw [hrelx.1, h2]
          · intro hc
            rw [hrelx.2.1]
            exact h3 (hrelx.2.2.2.2.1.mp hc)
        · have hrest : invChilds tl pfx = true := by
            rw [invChilds_iff]
            intro e y hy
            exact hinv e y (List.mem_cons_of_mem _ hy)
          have := hinvc pfx hrest
          rw [invChilds_iff] at this
          exact this d c' hm

theorem populate_ok_of_lengths (t : DigitTree) (L : Nat)
    (h : ∀ s ∈ t.terminals, s.length = L) :
    ∃ t', t.populate_used L = .ok t' ∧ PopRel L t t' :=
  (populate_aux t.size).1 t le_rfl L h

/-- A successful accounting pass certifies that every registered
identifier has the requested length. -/
theorem populate_len_aux : ∀ N : Nat,
    (∀ t : DigitTree, t.size ≤ N → ∀ L t', t.populate_used L = .ok t' →
      ∀ s ∈ t.terminals, s.length = L) ∧
    (∀ l : List (Nat × DigitTree), sizeChilds l ≤ N → ∀ L l',
      populateChilds l L = .ok l' → ∀ s ∈ terminalsChilds l, s.length = L) := by
  intro N
  induction N with
  | zero =>
    constructor
    · intro t ht
      exact absurd ht (by have := t.size_pos; omega)
    · intro l hl L l' hok s hs
      cases l with
      | nil => cases hs
      | cons hd tl =>
        obtain ⟨k, x⟩ := hd
        have := x.size_pos
        simp only [sizeChilds] at hl
        omega
  | succ N ihN =>
    have treePart : ∀ t : DigitTree, t.size ≤ N + 1 → ∀ L t',
        t.populate_used L = .ok t' → ∀ s ∈ t.terminals, s.length = L := by
      intro t ht L t' hok s hs
      cases t with
      | mk childs pfx term u v =>
        rw [DigitTree.size_def] at ht
        simp only [DigitTree.populate_used] at hok
        by_cases hassert : term = true ∧ pfx.length ≠ L
        · rw [if_pos hassert] at hok
          cases hok
        · rw [if_neg hassert] at hok
          rcases mem_terminals.mp hs with ⟨hterm, rfl⟩ | ⟨d, c, hm, hsc⟩
          · by_contra hne
            exact hassert ⟨hterm, hne⟩
          · cases hpc : populateChilds childs L with
            | error e =>
              rw [hpc] at hok
              cases hok
            | ok l' =>
              simp only [DigitTree.childs_mk] at hm
              exact ihN.2 childs (by omega) L l' hpc s
                (mem_terminalsChilds.mpr ⟨d, c, hm, hsc⟩)
    refine ⟨treePart, ?_⟩
    intro l hl L l' hok s hs
    induction l generalizing l' with
    | nil => cases hs
    | cons hd tl ihtl =>
      obtain ⟨k, x⟩ := hd
      simp only [sizeChilds] at hl
      simp only [populateChilds] at hok
      cases hx : x.populate_used L with
      | error e =>
        rw [hx] at hok
        cases hok
      | ok x' =>
        rw [hx] at hok
        cases htl : populateChilds tl L with
        | error e =>
          rw [htl] at hok
          cases hok
        | ok tl' =>
          rw [htl] at hok
          simp only [terminalsChilds, List.mem_append] at hs
          rcases hs with hs | hs
          · exact treePart x (by omega) L x' hx s hs
          · exact ihtl (by omega) tl' htl hs

/-- The accounting pass either succeeds or fails with the
length-mismatch assertion for the requested length — never with any
other error. -/
theorem populate_shape_aux : ∀ N : Nat,
    (∀ t : DigitTree, t.size ≤ N → ∀ L,
      (∃ t', t.populate_used L = .ok t') ∨
      (∃ p, t.populate_used L = .error (.lengthMismatch p L))) ∧
    (∀ l : List (Nat × DigitTree), sizeChilds l ≤ N → ∀ L,
      (∃ l', populateChilds l L = .ok l') ∨
      (∃ p, populateChilds l L = .error (.lengthMismatch p L))) := by
  intro N
  induction N with
  | zero =>
    constructor
    · intro t ht
      exact absurd ht (by have := t.size_pos; omega)
    · intro l hl L
      cases l with
      | nil => exact Or.inl ⟨[], rfl⟩
      | cons hd tl =>
        obtain ⟨k, x⟩ := hd
        have := x.size_pos
        simp only [sizeChilds] at hl
        omega
  | succ N ihN =>
    have treePart : ∀ t : DigitTree, t.size ≤ N + 1 → ∀ L,
        (∃ t', t.populate_used L = .ok t') ∨
        (∃ p, t.populate_used L = .error (.lengthMismatch p L)) := by
      intro t ht L
      cases t with
      | mk childs pfx term u v =>
        rw [DigitTree.size_def] at ht
        simp only [DigitTree.populate_used]
        by_cases hassert : term = true ∧ pfx.length ≠ L
        · rw [if_pos hassert]
          exact Or.inr ⟨pfx, rfl⟩
        · rw [if_neg hassert]
          rcases ihN.2 childs (by omega) L with ⟨l', hl'⟩ | ⟨p, hp⟩
          · rw [hl']
            exact Or.inl ⟨_, rfl⟩
          · rw [hp]
            exact Or.inr ⟨p, rfl⟩
    refine ⟨treePart, ?_⟩
    intro l hl L
    induction l with
    | nil => exact Or.inl ⟨[], rfl⟩
    | cons hd tl ihtl =>
      obtain ⟨k, x⟩ := hd
      simp only [sizeChilds] at hl
      simp only [populateChilds]
      rcases treePart x (by omega) L with ⟨x', hx'⟩ | ⟨p, hp⟩
      · rw [hx']
        rcases ihtl (by omega) with ⟨tl', htl'⟩ | ⟨p, hp⟩
        · rw [htl']
          exact Or.inl ⟨_, rfl⟩
        · rw [hp]
          exact Or.inr ⟨p, rfl⟩
      · rw [hp]
        exact Or.inr ⟨p, rfl⟩

theorem populate_shape (t : DigitTree) (L : Nat) :
    (∃ t', t.populate_used L = .ok t') ∨
    (∃ p, t.populate_used L = .error (.lengthMismatch p L)) :=
  (populate_shape_aux t.size).1 t le_rfl L

theorem populate_error_of_bad_length (t : DigitTree) (L : Nat)
    (h : ∃ s ∈ t.terminals, s.length ≠ L) :
    ∃ p, t.populate_used L = .error (.lengthMismatch p L) := by
  rcases populate_shape t L with ⟨t', ht'⟩ | he
  · obtain ⟨s, hs, hne⟩ := h
    exact absurd ((populate_len_aux t.size).1 t le_rfl L t' ht' s hs) hne
  · exact he

theorem populate_never_malformed (t : DigitTree) (L : Nat) :
    t.populate_used L ≠ .error .malformed := by
  rcases populate_shape t L with ⟨t', ht'⟩ | ⟨p, hp⟩
  · rw [ht']
    intro h
    cases h
  · rw [hp]
    intro h
    cases h

/-! ### find_node correctness -/

theorem findNodeF_ok : ∀ (fuel : Nat) (t : DigitTree) (s : List Char),
    t.invB = true → t.pfx <+: s → digitsOnly s = true → t.size ≤ fuel →
    ∃ r, findNodeF fuel t s = .ok r ∧ (r.isSome = true ↔ s ∈ t.terminals) := by
  intro fuel
  induction fuel with
  | zero =>
    intro t s _ _ _ hf
    exact absurd hf (by have := t.size_pos; omega)
  | succ n ih =>
    intro t s hinv hpre hdig hf
    cases t with
    | mk childs pfx term u v =>
      rw [DigitTree.size_def] at hf
      simp only [DigitTree.pfx_mk] at hpre
      simp only [findNodeF]
      by_cases hps : pfx = s
      · subst hps
        rw [if_pos rfl]
        cases term with
        | true =>
          refine ⟨some (.mk childs pfx true u v), rfl, ?_⟩
          simp only [Option.isSome_some, true_iff]
          exact mem_terminals.mpr (Or.inl ⟨rfl, rfl⟩)
        | false =>
          refine ⟨none, rfl, ?_⟩
          simp only [Option.isSome_none, Bool.false_eq_true, false_iff]
          intro hmem
          rcases mem_terminals.mp hmem with ⟨hterm, _⟩ | ⟨d, c, hm, hsc⟩
          · cases hterm
          · obtain ⟨_, hlen⟩ :=
              terminals_child_get (.mk childs pfx false u v) hinv d c hm pfx hsc
            simp only [DigitTree.pfx_mk] at hlen
            omega
      · rw [if_neg hps]
        by_cases hce : childs.isEmpty = true
        · rw [if_pos hce]
          refine ⟨none, rfl, ?_⟩
          simp only [Option.isSome_none, Bool.false_eq_true, false_iff]
          intro hmem
          rcases mem_terminals.mp hmem with ⟨_, hpe⟩ | ⟨d, c, hm, _⟩
          · exact hps hpe.symm
          · rw [DigitTree.childs_mk, List.isEmpty_iff.mp hce] at hm
            cases hm
        · rw [if_neg hce]
          obtain ⟨r, hr⟩ := hpre
          cases r with
          | nil => exact absurd (by simpa using hr) hps
          | cons c s0 =>
            subst hr
            have hcin : c.isDigit = true :=
              digitsOnly_iff.mp hdig c (List.mem_append_right pfx (List.mem_cons_self c s0))
            have hcd : charDigit c = some (charToDigit c) := charDigit_eq_some hcin
            have hdc : digitToChar (charToDigit c) = c := digitToChar_charToDigit hcin
            rw [get?_append_cons]
            simp only [hcd]
            obtain ⟨hdigp, hnd, hch⟩ := invB_iff.mp hinv
            simp only [DigitTree.childs_mk, DigitTree.pfx_mk] at hdigp hnd hch
            cases hlk : lookupChild childs (charToDigit c) with
            | none =>
              refine ⟨none, rfl, ?_⟩
              simp only [Option.isSome_none, Bool.false_eq_true, false_iff]
              intro hmem
              rcases mem_terminals.mp hmem with ⟨_, hpe⟩ | ⟨d, c', hm, hsc⟩
              · exact hps hpe.symm
              · obtain ⟨hg, _⟩ :=
                  terminals_child_get (.mk childs pfx term u v) hinv d c' hm _ hsc
                simp only [DigitTree.pfx_mk] at hg
                rw [get?_append_cons] at hg
                have hceq : c = digitToChar d := by injection hg
                have hdeq : d = charToDigit c := by
                  rw [hceq, charToDigit_digitToChar (hch d c' hm).1]
                subst hdeq
                simp only [DigitTree.childs_mk] at hm
                have := lookupChild_none_iff.mp hlk
                exact this (List.mem_map.mpr ⟨(charToDigit c, c'), hm, rfl⟩)
            | some child =>
              have hmem : (charToDigit c, child) ∈ childs := lookupChild_mem hlk
              obtain ⟨hcd9, hcpfx, hccot, hcinv⟩ := hch (charToDigit c) child hmem
              have hcpre : child.pfx <+: pfx ++ c :: s0 := by
                rw [hcpfx, hdc]
                exact ⟨s0, by simp⟩
              have hsz := sizeChilds_le_of_mem hmem
              obtain ⟨r, hr, hiff⟩ := ih child (pfx ++ c :: s0) hcinv hcpre hdig (by omega)
              refine ⟨r, hr, ?_⟩
              rw [hiff]
              constructor
              · intro hs
                exact mem_terminals.mpr (Or.inr ⟨charToDigit c, child, hmem, hs⟩)
              · intro hs
                rcases mem_terminals.mp hs with ⟨_, hpe⟩ | ⟨d, c', hm, hsc⟩
                · exact absurd hpe.symm hps
                · obtain ⟨hg, _⟩ :=
                    terminals_child_get (.mk childs pfx term u v) hinv d c' hm _ hsc
                  simp only [DigitTree.pfx_mk] at hg
                  rw [get?_append_cons] at hg
                  have hceq : c = digitToChar d := by injection hg
                  have hdeq : d = charToDigit c := by
                    rw [hceq, charToDigit_digitToChar (hch d c' (by simpa using hm)).1]
                  subst hdeq
                  simp only [DigitTree.childs_mk] at hm
                  have := lookupChild_of_mem_nodup hnd hm
                  rw [hlk] at this
                  injection this with hcc
                  rw [hcc]
                  exact hsc

theorem findNodeF_not_digits : ∀ (fuel : Nat) (t : DigitTree) (s : List Char),
    t.invB = true → t.pfx <+: s → ¬ digitsOnly s = true → t.size ≤ fuel →
    findNodeF fuel t s = .ok none ∨ findNodeF fuel t s = .error .malformed := by
  intro fuel
  induction fuel with
  | zero =>
    intro t s _ _ _ hf
    exact absurd hf (by have := t.size_pos; omega)
  | succ n ih =>
    intro t s hinv hpre hdig hf
    cases t with
    | mk childs pfx term u v =>
      rw [DigitTree.size_def] at hf
      simp only [DigitTree.pfx_mk] at hpre
      obtain ⟨hdigp, hnd, hch⟩ := invB_iff.mp hinv
      simp only [DigitTree.childs_mk, DigitTree.pfx_mk] at hdigp hnd hch
      simp only [findNodeF]
      by_cases hps : pfx = s
      · exact absurd (hps ▸ hdigp) hdig
      · rw [if_neg hps]
        by_cases hce : childs.isEmpty = true
        · rw [if_pos hce]
          exact Or.inl rfl
        · rw [if_neg hce]
          obtain ⟨r, hr⟩ := hpre
          cases r with
          | nil => exact absurd (by simpa using hr) hps
          | cons c s0 =>
            subst hr
            rw [get?_append_cons]
            by_cases hcin : c.isDigit = true
            · have hcd : charDigit c = some (charToDigit c) := charDigit_eq_some hcin
              have hdc : digitToChar (charToDigit c) = c := digitToChar_charToDigit hcin
              simp only [hcd]
              cases hlk : lookupChild childs (charToDigit c) with
              | none => exact Or.inl rfl
              | some child =>
                have hmem : (charToDigit c, child) ∈ childs := lookupChild_mem hlk
                obtain ⟨hcd9, hcpfx, hccot, hcinv⟩ := hch (charToDigit c) child hmem
                have hcpre : child.pfx <+: pfx ++ c :: s0 := by
                  rw [hcpfx, hdc]
                  exact ⟨s0, by simp⟩
                have hsz := sizeChilds_le_of_mem hmem
                exact ih child (pfx ++ c :: s0) hcinv hcpre hdig (by omega)
            · simp [charDigit_eq_none hcin]

/-! ### add_node on malformed identifiers -/

theorem addNodeF_fresh_malformed : ∀ (fuel : Nat) (pfx node : List Char),
    pfx <+: node → digitsOnly pfx = true → ¬ digitsOnly node = true →
    node.length - pfx.length < fuel →
    addNodeF fuel (.mk [] pfx false 0 0) node = .error .malformed := by
  intro fuel
  induction fuel with
  | zero =>
    intro pfx node hpre hdigp hdig hfuel
    omega
  | succ n ih =>
    intro pfx node hpre hdigp hdig hfuel
    by_cases hpn : pfx = node
    · exact absurd (hpn ▸ hdigp) hdig
    · obtain ⟨r, hr⟩ := hpre
      cases r with
      | nil => exact absurd (by simpa using hr) hpn
      | cons c s0 =>
        subst hr
        have hcp : commonPfx pfx (pfx ++ c :: s0) = pfx :=
          commonPfx_of_isPre ⟨c :: s0, rfl⟩
        have hlen : ¬ (pfx ++ c :: s0).length ≤ pfx.length := by simp
        simp only [addNodeF]
        rw [hcp]
        rw [if_neg hpn, if_neg hlen]
        rw [get?_append_cons]
        by_cases hcin : c.isDigit = true
        · have hcd : charDigit c = some (charToDigit c) := charDigit_eq_some hcin
          have hdc : digitToChar (charToDigit c) = c := digitToChar_charToDigit hcin
          simp only [hcd, lookupChild]
          have hpre' : pfx ++ [digitToChar (charToDigit c)] <+: pfx ++ c :: s0 := by
            rw [hdc]
            exact ⟨s0, by simp⟩
          have hdigp' : digitsOnly (pfx ++ [digitToChar (charToDigit c)]) = true := by
            rw [hdc]
            rw [digitsOnly_append]
            refine ⟨hdigp, ?_⟩
            rw [digitsOnly_iff]
            intro x hx
            rw [List.mem_singleton] at hx
            subst hx
            exact hcin
          have hfuel' : (pfx ++ c :: s0).length - (pfx ++ [digitToChar (charToDigit c)]).length < n := by
            simp only [List.length_append, List.length_cons, List.length_nil]
            simp only [List.length_append, List.length_cons] at hfuel
            omega
          rw [ih (pfx ++ [digitToChar (charToDigit c)]) (pfx ++ c :: s0) hpre' hdigp' hdig hfuel']
        · simp [charDigit_eq_none hcin]

theorem addNodeF_malformed : ∀ (fuel : Nat) (t : DigitTree) (node : List Char),
    t.invB = true → t.pfx <+: node → ¬ digitsOnly node = true →
    t.size + node.length ≤ fuel →
    addNodeF fuel t node = .error .malformed := by
  intro fuel
  induction fuel with
  | zero =>
    intro t node _ _ _ hf
    exact absurd hf (by have := t.size_pos; omega)
  | succ n ih =>
    intro t node hinv hpre hdig hf
    cases t with
    | mk childs pfx term u v =>
      rw [DigitTree.size_def] at hf
      simp only [DigitTree.pfx_mk] at hpre
      obtain ⟨hdigp, hnd, hch⟩ := invB_iff.mp hinv
      simp only [DigitTree.childs_mk, DigitTree.pfx_mk] at hdigp hnd hch
      by_cases hpn : pfx = node
      · exact absurd (hpn ▸ hdigp) hdig
      · obtain ⟨r, hr⟩ := hpre
        cases r with
        | nil => exact absurd (by simpa using hr) hpn
        | cons c s0 =>
          subst hr
          have hcp : commonPfx pfx (pfx ++ c :: s0) = pfx :=
            commonPfx_of_isPre ⟨c :: s0, rfl⟩
          have hlen : ¬ (pfx ++ c :: s0).length ≤ pfx.length := by simp
          simp only [addNodeF]
          rw [hcp]
          rw [if_neg hpn, if_neg hlen]
          rw [get?_append_cons]
          by_cases hcin : c.isDigit = true
          · have hcd : charDigit c = some (charToDigit c) := charDigit_eq_some hcin
            have hdc : digitToChar (charToDigit c) = c := digitToChar_charToDigit hcin
            simp only [hcd]
            cases hlk : lookupChild childs (charToDigit c) with
            | some sub =>
              have hmem : (charToDigit c, sub) ∈ childs := lookupChild_mem hlk
              obtain ⟨hsd9, hspfx, hscot, hsinv⟩ := hch (charToDigit c) sub hmem
              have hspre : sub.pfx <+: pfx ++ c :: s0 := by
                rw [hspfx, hdc]
                exact ⟨s0, by simp⟩
              have hsz := sizeChilds_le_of_mem hmem
              have hrec := ih sub (pfx ++ c :: s0) hsinv hspre hdig
                (by simp only [List.length_append, List.length_cons] at hf ⊢; omega)
              simp only [hlk, hrec]
            | none =>
              have hpre' : pfx ++ [digitToChar (charToDigit c)] <+: pfx ++ c :: s0 := by
                rw [hdc]
                exact ⟨s0, by simp⟩
              have hdigp' : digitsOnly (pfx ++ [digitToChar (charToDigit c)]) = true := by
                rw [hdc]
                rw [digitsOnly_append]
                refine ⟨hdigp, ?_⟩
                rw [digitsOnly_iff]
                intro x hx
                rw [List.mem_singleton] at hx
                subst hx
                exact hcin
              have hfuel' : (pfx ++ c :: s0).length - (pfx ++ [digitToChar (charToDigit c)]).length < n := by
                simp only [List.length_append, List.length_cons, List.length_nil]
                simp only [List.length_append, List.length_cons] at hf
                omega
              simp only [hlk, addNodeF_fresh_malformed n (pfx ++ [digitToChar (charToDigit c)])
                (pfx ++ c :: s0) hpre' hdigp' hdig hfuel']
          · simp [charDigit_eq_none hcin]

/-! ### from_list correctness -/

theorem foldl_add_ok : ∀ (l : List (List Char)) (t : DigitTree),
    t.invB = true → t.pfx = [] → (∀ s ∈ l, digitsOnly s = true) →
    ∃ t', (List.foldlM (fun a n => DigitTree.add_node a n) t l : Except DTErr DigitTree) = .ok t' ∧
      t'.pfx = [] ∧ t'.invB = true ∧
      (∀ s, s ∈ t'.terminals ↔ s ∈ t.terminals ∨ s ∈ l) ∧
      (t' = t ∨ (t'.childs = [] → t'.terminal = true)) := by
  intro l
  induction l with
  | nil =>
    intro t hinv hpfx hdig
    refine ⟨t, rfl, hpfx, hinv, ?_, Or.inl rfl⟩
    intro s
    simp
  | cons node rest ih =>
    intro t hinv hpfx hdig
    have hpre : t.pfx <+: node := by
      rw [hpfx]
      exact List.nil_prefix
    obtain ⟨t1, h1, h1pfx, h1inv, h1cot, h1iff⟩ :=
      addNodeF_ok (t.size + node.length + 1) t node hinv hpre
        (hdig node (List.mem_cons_self _ _)) (by omega)
    have hadd : t.add_node node = .ok t1 := h1
    obtain ⟨t', h2, h2pfx, h2inv, h2iff, h2cot⟩ :=
      ih t1 h1inv (by rw [h1pfx, hpfx]) (fun s hs => hdig s (List.mem_cons_of_mem _ hs))
    refine ⟨t', ?_, h2pfx, h2inv, ?_, ?_⟩
    · rw [List.foldlM_cons, hadd]
      exact h2
    · intro s
      rw [h2iff s, h1iff s, List.mem_cons]
      tauto
    · right
      rcases h2cot with rfl | hcot
      · exact h1cot
      · exact hcot

theorem emptyTree_invB : emptyTree.invB = true := by decide

theorem from_list_props (l : List (List Char)) (hdig : ∀ s ∈ l, digitsOnly s = true) :
    ∃ t, DigitTree.from_list l = .ok t ∧ t.pfx = [] ∧ t.invB = true ∧
      (∀ s, s ∈ t.terminals ↔ s ∈ l) ∧
      (t = emptyTree ∨ (t.childs = [] → t.terminal = true)) := by
  obtain ⟨t, h, hpfx, hinv, hiff, hcot⟩ :=
    foldl_add_ok l emptyTree emptyTree_invB rfl hdig
  refine ⟨t, h, hpfx, hinv, ?_, hcot⟩
  intro s
  rw [hiff s]
  constructor
  · rintro (hs | hs)
    · cases hs
    · exact hs
  · exact Or.inr

/-! ### Decimal representation: natRepr, padZeros, toDigitList -/

theorem natReprRec_irrel : ∀ (f1 f2 n : Nat), n < f1 → n < f2 →
    natReprRec f1 n = natReprRec f2 n := by
  intro f1
  induction f1 with
  | zero => intro f2 n h1 h2; omega
  | succ m ih =>
    intro f2 n h1 h2
    obtain ⟨m2, rfl⟩ : ∃ m2, f2 = m2 + 1 := by
      cases f2 with
      | zero => omega
      | succ m2 => exact ⟨m2, rfl⟩
    simp only [natReprRec]
    by_cases hn : n < 10
    · rw [if_pos hn, if_pos hn]
    · rw [if_neg hn, if_neg hn]
      have hd : n / 10 < n := Nat.div_lt_self (by omega) (by omega)
      rw [ih m2 (n / 10) (by omega) (by omega)]

theorem natRepr_eq (n : Nat) : natRepr n =
    (if n < 10 then [digitToChar n]
     else natRepr (n / 10) ++ [digitToChar (n % 10)]) := by
  by_cases hn : n < 10
  · rw [if_pos hn]
    show natReprRec (n + 1) n = _
    simp only [natReprRec]
    rw [if_pos hn]
  · rw [if_neg hn]
    show natReprRec (n + 1) n = _
    have h1 : natReprRec (n + 1) n = natReprRec n (n / 10) ++ [digitToChar (n % 10)] := by
      simp only [natReprRec]
      rw [if_neg hn]
    rw [h1]
    have hd : n / 10 < n := Nat.div_lt_self (by omega) (by omega)
    rw [natReprRec_irrel n (n / 10 + 1) (n / 10) (by omega) (by omega)]
    rfl

theorem natRepr_digitsOnly (n : Nat) : digitsOnly (natRepr n) = true := by
  induction n using Nat.strong_induction_on with
  | _ n ih =>
    rw [natRepr_eq]
    by_cases hn : n < 10
    · rw [if_pos hn]
      rw [digitsOnly_iff]
      intro c hc
      rw [List.mem_singleton] at hc
      subst hc
      exact digitToChar_isDigit (by omega)
    · rw [if_neg hn]
      rw [digitsOnly_append]
      refine ⟨ih (n / 10) (Nat.div_lt_self (by omega) (by omega)), ?_⟩
      rw [digitsOnly_iff]
      intro c hc
      rw [List.mem_singleton] at hc
      subst hc
      exact digitToChar_isDigit (by omega)

theorem natRepr_length_le : ∀ (k n : Nat), 1 ≤ k → n < 10 ^ k →
    (natRepr n).length ≤ k := by
  intro k
  induction k with
  | zero => omega
  | succ k ih =>
    intro n _ hn
    rw [natRepr_eq]
    by_cases h10 : n < 10
    · rw [if_pos h10]
      simp
    · rw [if_neg h10]
      have hk : 1 ≤ k := by
        by_contra hk0
        have : k = 0 := by omega
        subst this
        simp at hn
        omega
      have hd : n / 10 < 10 ^ k := by
        rw [Nat.div_lt_iff_lt_mul (by omega)]
        rw [pow_succ] at hn
        omega
      have := ih (n / 10) hk hd
      simp only [List.length_append, List.length_cons, List.length_nil]
      omega

theorem natRepr_pow_length : ∀ k : Nat, (natRepr (10 ^ k)).length = k + 1 := by
  intro k
  induction k with
  | zero => rfl
  | succ k ih =>
    rw [natRepr_eq]
    have h10 : ¬ 10 ^ (k + 1) < 10 := by
      have : 10 ^ 1 ≤ 10 ^ (k + 1) := Nat.pow_le_pow_right (by omega) (by omega)
      simpa using this
    rw [if_neg h10]
    have hdiv : 10 ^ (k + 1) / 10 = 10 ^ k := by
      rw [pow_succ]
      exact Nat.mul_div_cancel _ (by omega)
    rw [hdiv]
    simp only [List.length_append, List.length_cons, List.length_nil, ih]

theorem digitListToNat_append_singleton (l : List Char) (c : Char) :
    digitListToNat (l ++ [c]) = digitListToNat l * 10 + charToDigit c := by
  unfold digitListToNat
  rw [List.foldl_append]
  rfl

theorem charToDigit_zero : charToDigit '0' = 0 := rfl

theorem digitListToNat_natRepr (n : Nat) : digitListToNat (natRepr n) = n := by
  induction n using Nat.strong_induction_on with
  | _ n ih =>
    rw [natRepr_eq]
    by_cases hn : n < 10
    · rw [if_pos hn]
      show 0 * 10 + charToDigit (digitToChar n) = n
      rw [charToDigit_digitToChar (by omega)]
      omega
    · rw [if_neg hn]
      rw [digitListToNat_append_singleton]
      rw [ih (n / 10) (Nat.div_lt_self (by omega) (by omega))]
      rw [charToDigit_digitToChar (by omega)]
      omega

theorem toDigitList_length (k i : Nat) : (toDigitList k i).length = k := by
  induction k generalizing i with
  | zero => rfl
  | succ k ih =>
    simp only [toDigitList, List.length_append, List.length_cons, List.length_nil, ih]

theorem toDigitList_digitsOnly (k i : Nat) : digitsOnly (toDigitList k i) = true := by
  induction k generalizing i with
  | zero => rfl
  | succ k ih =>
    simp only [toDigitList]
    rw [digitsOnly_append]
    refine ⟨ih _, ?_⟩
    rw [digitsOnly_iff]
    intro c hc
    rw [List.mem_singleton] at hc
    subst hc
    exact digitToChar_isDigit (by omega)

theorem digitListToNat_toDigitList : ∀ (k i : Nat), i < 10 ^ k →
    digitListToNat (toDigitList k i) = i := by
  intro k
  induction k with
  | zero =>
    intro i hi
    simp only [pow_zero] at hi
    have h0 : i = 0 := by omega
    subst h0
    rfl
  | succ k ih =>
    intro i hi
    simp only [toDigitList]
    rw [digitListToNat_append_singleton]
    have hd : i / 10 < 10 ^ k := by
      rw [Nat.div_lt_iff_lt_mul (by omega)]
      rw [pow_succ] at hi
      omega
    rw [ih (i / 10) hd]
    rw [charToDigit_digitToChar (by omega)]
    omega

theorem toDigitList_digitListToNat : ∀ (k : Nat) (s : List Char),
    s.length = k → digitsOnly s = true → toDigitList k (digitListToNat s) = s := by
  intro k
  induction k with
  | zero =>
    intro s hl _
    rw [List.length_eq_zero] at hl
    subst hl
    rfl
  | succ k ih =>
    intro s hl hdig
    rcases List.eq_nil_or_concat s with rfl | ⟨s', c, rfl⟩
    · simp at hl
    · rw [List.concat_eq_append] at hl hdig ⊢
      rw [digitListToNat_append_singleton]
      have hc : c.isDigit = true :=
        digitsOnly_iff.mp hdig c (List.mem_append_right s' (List.mem_singleton.mpr rfl))
      have hc9 : charToDigit c ≤ 9 := charToDigit_le_nine hc
      simp only [toDigitList]
      have hdiv : (digitListToNat s' * 10 + charToDigit c) / 10 = digitListToNat s' := by
        omega
      have hmod : (digitListToNat s' * 10 + charToDigit c) % 10 = charToDigit c := by
        omega
      rw [hdiv, hmod]
      rw [digitToChar_charToDigit hc]
      have hl' : s'.length = k := by
        simp only [List.length_append, List.length_cons, List.length_nil] at hl
        omega
      rw [ih s' hl' (digitsOnly_append.mp hdig).1]

theorem digitListToNat_lt (s : List Char) (hdig : digitsOnly s = true) :
    digitListToNat s < 10 ^ s.length := by
  induction s using List.reverseRecOn with
  | nil => simp [digitListToNat]
  | append_singleton s' c ih =>
    rw [digitListToNat_append_singleton]
    have hc : c.isDigit = true :=
      digitsOnly_iff.mp hdig c (List.mem_append_right s' (List.mem_singleton.mpr rfl))
    have hc9 : charToDigit c ≤ 9 := charToDigit_le_nine hc
    have := ih (digitsOnly_append.mp hdig).1
    simp only [List.length_append, List.length_cons, List.length_nil]
    rw [pow_succ]
    omega

theorem digitListToNat_replicate_zero (m : Nat) (r : List Char) :
    digitListToNat (List.replicate m '0' ++ r) = digitListToNat r := by
  induction m with
  | zero => rfl
  | succ m ih =>
    rw [List.replicate_succ, List.cons_append]
    show (List.replicate m '0' ++ r).foldl (fun acc c => acc * 10 + charToDigit c)
      (0 * 10 + charToDigit '0') = digitListToNat r
    rw [charToDigit_zero]
    exact ih

theorem padZeros_eq_toDigitList (k i : Nat) (hk : 1 ≤ k) (hi : i < 10 ^ k) :
    padZeros k i = toDigitList k i := by
  have hrlen : (natRepr i).length ≤ k := natRepr_length_le k i hk hi
  have hlen : (padZeros k i).length = k := by
    unfold padZeros
    simp only [List.length_append, List.length_replicate]
    omega
  have hdig : digitsOnly (padZeros k i) = true := by
    unfold padZeros
    rw [digitsOnly_append]
    refine ⟨?_, natRepr_digitsOnly i⟩
    rw [digitsOnly_iff]
    intro c hc
    rw [List.eq_of_mem_replicate hc]
    decide
  have hval : digitListToNat (padZeros k i) = i := by
    unfold padZeros
    rw [digitListToNat_replicate_zero, digitListToNat_natRepr]
  calc padZeros k i = toDigitList k (digitListToNat (padZeros k i)) :=
        (toDigitList_digitListToNat k _ hlen hdig).symm
    _ = toDigitList k i := by rw [hval]

theorem toDigitList_head : ∀ (k i : Nat), 1 ≤ k → i < 10 ^ k →
    (toDigitList k i).head? = some (digitToChar (i / 10 ^ (k - 1))) := by
  intro k
  induction k with
  | zero => omega
  | succ k ih =>
    intro i _ hi
    simp only [toDigitList]
    cases hk : k with
    | zero =>
      subst hk
      show ([] ++ [digitToChar (i % 10)]).head? = _
      simp only [List.nil_append, List.head?_cons]
      have : i < 10 := by simpa using hi
      have hmod : i % 10 = i := Nat.mod_eq_of_lt this
      have hdiv : i / 10 ^ (1 - 1) = i := by simp
      rw [hmod, hdiv]
    | succ k' =>
      subst hk
      have hd : i / 10 < 10 ^ (k' + 1) := by
        rw [Nat.div_lt_iff_lt_mul (by omega)]
        rw [pow_succ] at hi
        omega
      have hne : toDigitList (k' + 1) (i / 10) ≠ [] := by
        intro hcon
        have := toDigitList_length (k' + 1) (i / 10)
        rw [hcon] at this
        simp at this
      rw [List.head?_append_of_ne_nil _ hne]
      rw [ih (i / 10) (by omega) hd]
      have hstep : i / 10 / 10 ^ (k' + 1 - 1) = i / 10 ^ (k' + 1 + 1 - 1) := by
        rw [Nat.div_div_eq_div_mul]
        have h1 : k' + 1 - 1 = k' := by omega
        have h2 : k' + 1 + 1 - 1 = k' + 1 := by omega
        rw [h1, h2, pow_succ]
        ring_nf
      rw [hstep]

/-! ### Enumeration: soundness of _rec_availabe -/

theorem isPre_cons_get {pfx s : List Char} {ch : Char} (h : pfx ++ [ch] <+: s) :
    s.get? pfx.length = some ch := by
  obtain ⟨r, hr⟩ := h
  rw [List.append_assoc] at hr
  rw [← hr]
  exact get?_append_cons pfx r ch

/-- At a node with at least one child, the prefix is strictly shorter
than the common identifier length. -/
theorem node_pfx_lt {t : DigitTree} {L : Nat} (hinv : t.invB = true)
    (hlen : ∀ s ∈ t.terminals, s.length = L) (hne : t.childs ≠ []) :
    t.pfx.length + 1 ≤ L := by
  obtain ⟨⟨d, c⟩, hm⟩ := List.exists_mem_of_ne_nil t.childs hne
  obtain ⟨_, _, hcot, hcinv⟩ := (invB_iff.mp hinv).2.2 d c hm
  obtain ⟨s0, hs0⟩ := List.exists_mem_of_ne_nil c.terminals (terminals_ne_nil c hcinv hcot)
  obtain ⟨_, hlt⟩ := terminals_child_get t hinv d c hm s0 hs0
  have := hlen s0 (mem_terminals.mpr (Or.inr ⟨d, c, hm, hs0⟩))
  omega

/-- A string whose branching character is not the digit of any child key
is registered nowhere below the node (and differs from the node itself
whenever it is longer). -/
theorem not_mem_terminals_of_get {t : DigitTree} (hinv : t.invB = true)
    {s : List Char} {ch : Char} (hget : s.get? t.pfx.length = some ch)
    (hlen : t.pfx.length < s.length)
    (hnk : ∀ d c, (d, c) ∈ t.childs → digitToChar d = ch → s ∉ c.terminals) :
    s ∉ t.terminals := by
  intro hmem
  rcases mem_terminals.mp hmem with ⟨_, rfl⟩ | ⟨d, c, hm, hsc⟩
  · omega
  · obtain ⟨hg, _⟩ := terminals_child_get t hinv d c hm s hsc
    rw [hget] at hg
    injection hg with hg2
    exact hnk d c hm hg2.symm hsc

theorem recAvailabeF_sound : ∀ (fuel : Nat) (t : DigitTree) (L : Nat),
    t.invB = true →
    (∀ nd, IsNodeOf nd t → nd.covers = 10 ^ (L - nd.pfx.length)) →
    (∀ s ∈ t.terminals, s.length = L) →
    t.size ≤ fuel →
    ∀ s ∈ recAvailabeF fuel t,
      s.length = L ∧ digitsOnly s = true ∧ t.pfx <+: s ∧ s ∉ t.terminals := by
  intro fuel
  induction fuel with
  | zero =>
    intro t L _ _ _ hf
    exact absurd hf (by have := t.size_pos; omega)
  | succ n ih =>
    intro t L hinv hcov hlen hf s hs
    cases t with
    | mk childs pfx term u v =>
      rw [DigitTree.size_def] at hf
      simp only [recAvailabeF] at hs
      rcases hsort : sortChilds childs with _ | ⟨top, rest⟩
      · rw [hsort] at hs
        cases hs
      · rw [hsort] at hs
        have hchne : childs ≠ [] := by
          intro hcon
          rw [hcon] at hsort
          cases hsort
        have hpfxL : pfx.length + 1 ≤ L :=
          node_pfx_lt (t := .mk childs pfx term u v) hinv hlen hchne
        obtain ⟨hdigp, hnd, hch⟩ := invB_iff.mp hinv
        simp only [DigitTree.childs_mk, DigitTree.pfx_mk] at hdigp hnd hch
        have hks : ∀ c, c ∈ top :: rest → c ∈ childs := by
          intro c hc
          rw [← hsort] at hc
          exact mem_sortChilds.mp hc
        have htopmem : (top.1, top.2) ∈ childs := by
          rw [Prod.mk.eta]
          exact hks top (List.mem_cons_self _ _)
        obtain ⟨htd9, htpfx, _, htinv⟩ := hch top.1 top.2 htopmem
        have htcov : top.2.covers = 10 ^ (L - (pfx.length + 1)) := by
          have := hcov top.2 (IsNodeOf.child top.1 (by simpa using htopmem) (IsNodeOf.refl _))
          rw [this, htpfx]
          simp
        rw [List.mem_append] at hs
        rcases hs with hs | hs
        · rw [List.mem_flatten] at hs
          obtain ⟨l0, hl0, hsl0⟩ := hs
          rw [List.mem_map] at hl0
          obtain ⟨c, hcm, rfl⟩ := hl0
          have hcmem : (c.1, c.2) ∈ childs := by
            rw [Prod.mk.eta]
            exact hks c hcm
          obtain ⟨hcd9, hcpfx, hccot, hcinv⟩ := hch c.1 c.2 hcmem
          have hcc : ∀ nd, IsNodeOf nd c.2 → nd.covers = 10 ^ (L - nd.pfx.length) := by
            intro nd hnd
            exact hcov nd (IsNodeOf.child c.1 (by simpa using hcmem) hnd)
          have hclen : ∀ s0 ∈ c.2.terminals, s0.length = L := by
            intro s0 hs0
            exact hlen s0 (mem_terminals.mpr (Or.inr ⟨c.1, c.2, by simpa using hcmem, hs0⟩))
          have hsz := sizeChilds_le_of_mem hcmem
          obtain ⟨hsL, hsdig, hspre, hsnt⟩ := ih c.2 L hcinv hcc hclen (by omega) s hsl0
          rw [hcpfx] at hspre
          have hspre' : pfx <+: s :=
            (List.prefix_append pfx [digitToChar c.1]).trans hspre
          refine ⟨hsL, hsdig, hspre', ?_⟩
          apply not_mem_terminals_of_get (t := .mk childs pfx term u v) hinv
            (isPre_cons_get hspre) (by simp only [DigitTree.pfx_mk]; omega)
          intro d' c' hm' heq hmem'
          have hdeq : d' = c.1 := digitToChar_inj (hch d' c' hm').1 hcd9 heq
          subst hdeq
          have h1 := lookupChild_of_mem_nodup hnd hm'
          have h2 := lookupChild_of_mem_nodup hnd hcmem
          rw [h1] at h2
          injection h2 with h2
          rw [h2] at hmem'
          exact hsnt hmem'
        · rw [List.mem_flatten] at hs
          obtain ⟨l0, hl0, hsl0⟩ := hs
          rw [List.mem_map] at hl0
          obtain ⟨digit, hdm, rfl⟩ := hl0
          rw [List.mem_range] at hdm
          by_cases hhc : (lookupChild childs digit).isSome = true
          · rw [if_pos hhc] at hsl0
            cases hsl0
          · rw [if_neg hhc] at hsl0
            by_cases hzero : pfx = [] ∧ digit = 0
            · rw [if_pos hzero] at hsl0
              cases hsl0
            · rw [if_neg hzero] at hsl0
              have hnkey : ∀ d' c', (d', c') ∈ childs → digitToChar d' = digitToChar digit →
                  s ∉ c'.terminals := by
                intro d' c' hm' heq _
                have hdeq : d' = digit := digitToChar_inj (hch d' c' hm').1 (by omega) heq
                subst hdeq
                apply hhc
                rw [lookupChild_isSome_iff]
                exact List.mem_map.mpr ⟨(d', c'), hm', rfl⟩
              by_cases hc1 : top.2.covers = 1
              · rw [if_pos hc1] at hsl0
                rw [List.mem_singleton] at hsl0
                subst hsl0
                have hk0 : L - (pfx.length + 1) = 0 := by
                  rw [htcov] at hc1
                  by_contra hk
                  have h1 : 1 ≤ L - (pfx.length + 1) := by omega
                  have : (10:ℕ) ^ 1 ≤ 10 ^ (L - (pfx.length + 1)) :=
                    Nat.pow_le_pow_right (by omega) h1
                  omega
                refine ⟨?_, ?_, ⟨[digitToChar digit], rfl⟩, ?_⟩
                · simp only [List.length_append, List.length_cons, List.length_nil]
                  omega
                · rw [digitsOnly_append]
                  refine ⟨hdigp, ?_⟩
                  rw [digitsOnly_iff]
                  intro x hx
                  rw [List.mem_singleton] at hx
                  subst hx
                  exact digitToChar_isDigit (by omega)
                · apply not_mem_terminals_of_get (t := .mk childs pfx term u v) hinv
                    (isPre_cons_get List.prefix_rfl) (by simp)
                  intro d' c' hm' heq hmem'
                  exact hnkey d' c' hm' heq hmem'
              · rw [if_neg hc1] at hsl0
                rw [List.mem_map] at hsl0
                obtain ⟨i, him, rfl⟩ := hsl0
                rw [List.mem_range] at him
                set k := L - (pfx.length + 1) with hkdef
                have hk1 : 1 ≤ k := by
                  by_contra hk
                  have : k = 0 := by omega
                  rw [htcov, this] at hc1
                  simp at hc1
                have hwidth : (natRepr top.2.covers).length - 1 = k := by
                  rw [htcov, natRepr_pow_length]
                  omega
                rw [hwidth]
                have hicov : i < 10 ^ k := by
                  rw [htcov] at him
                  exact him
                rw [padZeros_eq_toDigitList k i hk1 hicov]
                rw [hwidth, padZeros_eq_toDigitList k i hk1 hicov] at hnkey
                refine ⟨?_, ?_, ⟨digitToChar digit :: toDigitList k i, rfl⟩, ?_⟩
                · simp only [List.length_append, List.length_cons, toDigitList_length]
                  omega
                · rw [digitsOnly_append]
                  refine ⟨hdigp, ?_⟩
                  rw [digitsOnly_iff]
                  intro x hx
                  rcases List.mem_cons.mp hx with hx | hx
                  · subst hx
                    exact digitToChar_isDigit (by omega)
                  · exact digitsOnly_iff.mp (toDigitList_digitsOnly k i) x hx
                · apply not_mem_terminals_of_get (t := .mk childs pfx term u v) hinv
                    (by
                      show (pfx ++ digitToChar digit :: toDigitList k i).get? pfx.length = _
                      rw [get?_append_cons])
                    (by
                      show pfx.length < (pfx ++ digitToChar digit :: toDigitList k i).length
                      simp only [List.length_append, List.length_cons, toDigitList_length]
                      omega)
                  intro d' c' hm' heq hmem'
                  exact hnkey d' c' hm' heq hmem'

/-! ### Enumeration: completeness of _rec_availabe -/

theorem recAvailabeF_isPre : ∀ (fuel : Nat) (t : DigitTree), t.invB = true →
    ∀ s ∈ recAvailabeF fuel t, t.pfx <+: s := by
  intro fuel
  induction fuel with
  | zero =>
    intro t _ s hs
    cases hs
  | succ n ih =>
    intro t hinv s hs
    cases t with
    | mk childs pfx term u v =>
      simp only [recAvailabeF] at hs
      rcases hsort : sortChilds childs with _ | ⟨top, rest⟩
      · rw [hsort] at hs
        cases hs
      · rw [hsort] at hs
        obtain ⟨_, _, hch⟩ := invB_iff.mp hinv
        simp only [DigitTree.childs_mk, DigitTree.pfx_mk] at hch
        show pfx <+: s
        rw [List.mem_append] at hs
        rcases hs with hs | hs
        · rw [List.mem_flatten] at hs
          obtain ⟨l0, hl0, hsl0⟩ := hs
          rw [List.mem_map] at hl0
          obtain ⟨c, hcm, rfl⟩ := hl0
          have hcmem : (c.1, c.2) ∈ childs := by
            rw [Prod.mk.eta]
            rw [← hsort] at hcm
            exact mem_sortChilds.mp hcm
          obtain ⟨_, hcpfx, _, hcinv⟩ := hch c.1 c.2 hcmem
          have := ih c.2 hcinv s hsl0
          rw [hcpfx] at this
          exact (List.prefix_append pfx [digitToChar c.1]).trans this
        · rw [List.mem_flatten] at hs
          obtain ⟨l0, hl0, hsl0⟩ := hs
          rw [List.mem_map] at hl0
          obtain ⟨digit, _, rfl⟩ := hl0
          by_cases h1 : (lookupChild childs digit).isSome = true
          · rw [if_pos h1] at hsl0
            cases hsl0
          · rw [if_neg h1] at hsl0
            by_cases h2 : pfx = [] ∧ digit = 0
            · rw [if_pos h2] at hsl0
              cases hsl0
            · rw [if_neg h2] at hsl0
              by_cases h3 : top.2.covers = 1
              · rw [if_pos h3] at hsl0
                rw [List.mem_singleton] at hsl0
                subst hsl0
                exact ⟨[digitToChar digit], rfl⟩
              · rw [if_neg h3] at hsl0
                rw [List.mem_map] at hsl0
                obtain ⟨i, _, rfl⟩ := hsl0
                exact ⟨digitToChar digit ::
                  padZeros ((natRepr top.2.covers).length - 1) i, rfl⟩

theorem recAvailabeF_head : ∀ (fuel : Nat) (t : DigitTree), t.invB = true →
    t.pfx = [] → lookupChild t.childs 0 = none →
    ∀ s ∈ recAvailabeF fuel t, s.get? 0 ≠ some ('0' : Char) := by
  intro fuel t hinv hpfx hlk s hs
  cases fuel with
  | zero => cases hs
  | succ n =>
    cases t with
    | mk childs pfx term u v =>
      simp only [DigitTree.pfx_mk] at hpfx
      subst hpfx
      simp only [DigitTree.childs_mk] at hlk
      obtain ⟨_, _, hch⟩ := invB_iff.mp hinv
      simp only [DigitTree.childs_mk, DigitTree.pfx_mk] at hch
      simp only [recAvailabeF] at hs
      rcases hsort : sortChilds childs with _ | ⟨top, rest⟩
      · rw [hsort] at hs
        cases hs
      · rw [hsort] at hs
        rw [List.mem_append] at hs
        rcases hs with hs | hs
        · rw [List.mem_flatten] at hs
          obtain ⟨l0, hl0, hsl0⟩ := hs
          rw [List.mem_map] at hl0
          obtain ⟨c, hcm, rfl⟩ := hl0
          have hcmem : (c.1, c.2) ∈ childs := by
            rw [Prod.mk.eta]
            rw [← hsort] at hcm
            exact mem_sortChilds.mp hcm
          obtain ⟨hcd9, hcpfx, _, hcinv⟩ := hch c.1 c.2 hcmem
          have hpre := recAvailabeF_isPre n c.2 hcinv s hsl0
          rw [hcpfx, List.nil_append] at hpre
          obtain ⟨rr, hrr⟩ := hpre
          rw [← hrr]
          intro hcon
          rw [List.singleton_append] at hcon
          injection hcon with h
          have hc10 : c.1 = 0 := (digitToChar_eq_zero_iff hcd9).mp h
          rw [lookupChild_none_iff] at hlk
          apply hlk
          rw [← hc10]
          exact List.mem_map.mpr ⟨(c.1, c.2), hcmem, rfl⟩
        · rw [List.mem_flatten] at hs
          obtain ⟨l0, hl0, hsl0⟩ := hs
          rw [List.mem_map] at hl0
          obtain ⟨digit, hdm, rfl⟩ := hl0
          rw [List.mem_range] at hdm
          by_cases h1 : (lookupChild childs digit).isSome = true
          · rw [if_pos h1] at hsl0
            cases hsl0
          · rw [if_neg h1] at hsl0
            by_cases hd0 : digit = 0
            · rw [if_pos (show True ∧ digit = 0 from ⟨trivial, hd0⟩)] at hsl0
              cases hsl0
            · rw [if_neg (show ¬(True ∧ digit = 0) from fun hc => hd0 hc.2)] at hsl0
              have hne : digitToChar digit ≠ '0' := fun hc =>
                hd0 ((digitToChar_eq_zero_iff (by omega)).mp hc)
              by_cases h3 : top.2.covers = 1
              · rw [if_pos h3] at hsl0
                rw [List.mem_singleton] at hsl0
                subst hsl0
                rw [List.nil_append]
                intro hcon
                injection hcon with h
                exact hne h
              · rw [if_neg h3] at hsl0
                rw [List.mem_map] at hsl0
                obtain ⟨i, _, rfl⟩ := hsl0
                rw [List.nil_append]
                intro hcon
                injection hcon with h
                exact hne h

theorem recAvailabeF_mem : ∀ (fuel : Nat) (t : DigitTree) (L : Nat),
    t.invB = true →
    (∀ nd, IsNodeOf nd t → nd.covers = 10 ^ (L - nd.pfx.length)) →
    (∀ s0 ∈ t.terminals, s0.length = L) →
    (t.childs = [] → t.terminal = true) →
    (t.pfx = [] → lookupChild t.childs 0 = none) →
    t.size ≤ fuel →
    ∀ s : List Char, s.length = L → digitsOnly s = true → t.pfx <+: s →
      s ∉ t.terminals → (t.pfx = [] → s.get? 0 ≠ some ('0' : Char)) →
      s ∈ recAvailabeF fuel t := by
  intro fuel
  induction fuel with
  | zero =>
    intro t L _ _ _ _ _ hf
    exact absurd hf (by have := t.size_pos; omega)
  | succ n ih =>
    intro t L hinv hcov hlen hcot hlk0 hf s hsL hsdig hspre hsnt hshead
    cases t with
    | mk childs pfx term u v =>
      rw [DigitTree.size_def] at hf
      simp only [DigitTree.childs_mk, DigitTree.terminal_mk] at hcot
      simp only [DigitTree.pfx_mk, DigitTree.childs_mk] at hlk0
      simp only [DigitTree.pfx_mk] at hspre hshead
      obtain ⟨hdigp, hnd, hch⟩ := invB_iff.mp hinv
      simp only [DigitTree.childs_mk, DigitTree.pfx_mk] at hdigp hnd hch
      by_cases hch0 : childs = []
      · have hterm : term = true := hcot hch0
        have hpfxmem : pfx ∈ (DigitTree.mk childs pfx term u v).terminals :=
          mem_terminals.mpr (Or.inl ⟨hterm, rfl⟩)
        have hpfxL : pfx.length = L := hlen pfx hpfxmem
        have heq : pfx = s := List.IsPrefix.eq_of_length hspre (by omega)
        exact absurd (mem_terminals.mpr (Or.inl ⟨hterm, heq.symm⟩) :
          s ∈ (DigitTree.mk childs pfx term u v).terminals) hsnt
      · rcases hsort : sortChilds childs with _ | ⟨top, rest⟩
        · exact absurd (sortChilds_eq_nil_iff.mp hsort) hch0
        · simp only [recAvailabeF]
          rw [hsort]
          rw [List.mem_append]
          have hpfxL : pfx.length + 1 ≤ L :=
            node_pfx_lt (t := .mk childs pfx term u v) hinv hlen hch0
          obtain ⟨r, hr⟩ := hspre
          rcases r with _ | ⟨ch, r'⟩
          · rw [List.append_nil] at hr
            subst hr
            exact absurd hsL (by omega)
          · subst hr
            have hch_dig : ch.isDigit = true :=
              digitsOnly_iff.mp hsdig ch
                (List.mem_append_right pfx (List.mem_cons_self _ _))
            set digit := charToDigit ch with hdigdef
            have hd9 : digit ≤ 9 := charToDigit_le_nine hch_dig
            have hdc : digitToChar digit = ch := digitToChar_charToDigit hch_dig
            have hsL' : r'.length = L - (pfx.length + 1) := by
              have h := hsL
              simp only [List.length_append, List.length_cons] at h
              omega
            have htopmem : (top.1, top.2) ∈ childs := by
              rw [Prod.mk.eta]
              have hmem : top ∈ sortChilds childs := by
                rw [hsort]
                exact List.mem_cons_self _ _
              exact mem_sortChilds.mp hmem
            obtain ⟨htd9, htpfx, _, htinv⟩ := hch top.1 top.2 htopmem
            have htcov : top.2.covers = 10 ^ (L - (pfx.length + 1)) := by
              have := hcov top.2
                (IsNodeOf.child top.1 (by simpa using htopmem) (IsNodeOf.refl _))
              rw [this, htpfx]
              simp
            rcases hlk : lookupChild childs digit with _ | c0
            · right
              have hnsome : ¬ (lookupChild childs digit).isSome = true := by
                rw [hlk]
                simp
              have hnz : ¬ (pfx = [] ∧ digit = 0) := by
                rintro ⟨hp0, hd0⟩
                apply hshead hp0
                subst hp0
                show some ch = some '0'
                rw [← hdc, hd0]
                rfl
              have hblock : pfx ++ ch :: r' ∈
                  (if (lookupChild childs digit).isSome then ([] : List (List Char))
                   else if pfx = [] ∧ digit = 0 then []
                   else if top.2.covers = 1 then [pfx ++ [digitToChar digit]]
                   else (List.range top.2.covers).map
                          (fun i => pfx ++ digitToChar digit ::
                                      padZeros ((natRepr top.2.covers).length - 1) i)) := by
                rw [if_neg hnsome, if_neg hnz]
                by_cases hc1 : top.2.covers = 1
                · rw [if_pos hc1]
                  have hk0 : L - (pfx.length + 1) = 0 := by
                    rw [htcov] at hc1
                    by_contra hk
                    have h1 : 1 ≤ L - (pfx.length + 1) := by omega
                    have : (10:ℕ) ^ 1 ≤ 10 ^ (L - (pfx.length + 1)) :=
                      Nat.pow_le_pow_right (by omega) h1
                    omega
                  have hr'nil : r' = [] := List.length_eq_zero.mp (by omega)
                  subst hr'nil
                  rw [List.mem_singleton, hdc]
                · rw [if_neg hc1]
                  set k := L - (pfx.length + 1) with hkdef
                  have hk1 : 1 ≤ k := by
                    by_contra hk
                    have hk0 : k = 0 := by omega
                    rw [htcov, hk0] at hc1
                    simp at hc1
                  have hwidth : (natRepr top.2.covers).length - 1 = k := by
                    rw [htcov, natRepr_pow_length]
                    omega
                  have hr'dig : digitsOnly r' = true := by
                    rw [digitsOnly_iff]
                    intro x hx
                    exact digitsOnly_iff.mp hsdig x
                      (List.mem_append_right pfx (List.mem_cons_of_mem ch hx))
                  have hlt : digitListToNat r' < 10 ^ k := by
                    have := digitListToNat_lt r' hr'dig
                    rw [hsL'] at this
                    exact this
                  rw [List.mem_map]
                  refine ⟨digitListToNat r', ?_, ?_⟩
                  · rw [List.mem_range, htcov]
                    exact hlt
                  · rw [hwidth, padZeros_eq_toDigitList k (digitListToNat r') hk1 hlt,
                        toDigitList_digitListToNat k r' hsL' hr'dig, hdc]
              rw [List.mem_flatten]
              exact ⟨_, List.mem_map.mpr ⟨digit,
                List.mem_range.mpr (by omega), rfl⟩, hblock⟩
            · left
              have hcmem : (digit, c0) ∈ childs := lookupChild_mem hlk
              obtain ⟨_, hcpfx, hccot, hcinv⟩ := hch digit c0 hcmem
              have hcovc : ∀ nd, IsNodeOf nd c0 → nd.covers = 10 ^ (L - nd.pfx.length) :=
                fun nd hnd => hcov nd (IsNodeOf.child digit (by simpa using hcmem) hnd)
              have hlenc : ∀ s0 ∈ c0.terminals, s0.length = L :=
                fun s0 hs0 => hlen s0 (mem_terminals.mpr
                  (Or.inr ⟨digit, c0, by simpa using hcmem, hs0⟩))
              have hszc : c0.size ≤ n := by
                have := sizeChilds_le_of_mem hcmem
                omega
              have hpre_c : c0.pfx <+: pfx ++ ch :: r' := by
                rw [hcpfx, hdc]
                exact ⟨r', by rw [List.append_assoc]; rfl⟩
              have hnmem_c : pfx ++ ch :: r' ∉ c0.terminals := by
                intro hmem
                exact hsnt (mem_terminals.mpr
                  (Or.inr ⟨digit, c0, by simpa using hcmem, hmem⟩))
              have hheadc : c0.pfx = [] → (pfx ++ ch :: r').get? 0 ≠ some ('0' : Char) := by
                intro h0
                rw [hcpfx] at h0
                exact absurd h0 (by simp)
              have hlk0c : c0.pfx = [] → lookupChild c0.childs 0 = none := by
                intro h0
                rw [hcpfx] at h0
                exact absurd h0 (by simp)
              rw [List.mem_flatten]
              refine ⟨recAvailabeF n c0, ?_, ?_⟩
              · rw [List.mem_map]
                refine ⟨(digit, c0), ?_, rfl⟩
                rw [← hsort]
                exact mem_sortChilds.mpr hcmem
              · exact ih c0 L hcinv hcovc hlenc hccot hlk0c hszc
                  (pfx ++ ch :: r') hsL hsdig hpre_c hnmem_c hheadc

theorem recAvailabeF_nodup : ∀ (fuel : Nat) (t : DigitTree) (L : Nat),
    t.invB = true →
    (∀ nd, IsNodeOf nd t → nd.covers = 10 ^ (L - nd.pfx.length)) →
    (∀ s0 ∈ t.terminals, s0.length = L) →
    t.size ≤ fuel →
    (recAvailabeF fuel t).Nodup := by
  intro fuel
  induction fuel with
  | zero =>
    intro t L _ _ _ _
    exact List.nodup_nil
  | succ n ih =>
    intro t L hinv hcov hlen hf
    cases t with
    | mk childs pfx term u v =>
      rw [DigitTree.size_def] at hf
      simp only [recAvailabeF]
      rcases hsort : sortChilds childs with _ | ⟨top, rest⟩
      · exact List.nodup_nil
      · obtain ⟨hdigp, hnd, hch⟩ := invB_iff.mp hinv
        simp only [DigitTree.childs_mk, DigitTree.pfx_mk] at hdigp hnd hch
        have hks : ∀ c : Nat × DigitTree, c ∈ top :: rest → (c.1, c.2) ∈ childs := by
          intro c hc
          rw [Prod.mk.eta]
          rw [← hsort] at hc
          exact mem_sortChilds.mp hc
        have hgetA : ∀ c : Nat × DigitTree, c ∈ top :: rest →
            ∀ s ∈ recAvailabeF n c.2, s.get? pfx.length = some (digitToChar c.1) := by
          intro c hc s hs
          obtain ⟨_, hcpfx, _, hcinv⟩ := hch c.1 c.2 (hks c hc)
          have := recAvailabeF_isPre n c.2 hcinv s hs
          rw [hcpfx] at this
          exact isPre_cons_get this
        have htopmem := hks top (List.mem_cons_self _ _)
        obtain ⟨htd9, htpfx, _, htinv⟩ := hch top.1 top.2 htopmem
        have htcov : top.2.covers = 10 ^ (L - (pfx.length + 1)) := by
          have := hcov top.2
            (IsNodeOf.child top.1 (by simpa using htopmem) (IsNodeOf.refl _))
          rw [this, htpfx]
          simp
        have hgetB : ∀ digit : Nat,
            ∀ s ∈ (if (lookupChild childs digit).isSome then ([] : List (List Char))
                   else if pfx = [] ∧ digit = 0 then []
                   else if top.2.covers = 1 then [pfx ++ [digitToChar digit]]
                   else (List.range top.2.covers).map
                          (fun i => pfx ++ digitToChar digit ::
                                      padZeros ((natRepr top.2.covers).length - 1) i)),
              lookupChild childs digit = none ∧
              s.get? pfx.length = some (digitToChar digit) := by
          intro digit s hs
          by_cases h1 : (lookupChild childs digit).isSome = true
          · rw [if_pos h1] at hs
            cases hs
          · rw [if_neg h1] at hs
            refine ⟨?_, ?_⟩
            · rcases hn : lookupChild childs digit with _ | c0
              · rfl
              · rw [hn] at h1
                simp at h1
            · by_cases h2 : pfx = [] ∧ digit = 0
              · rw [if_pos h2] at hs
                cases hs
              · rw [if_neg h2] at hs
                by_cases h3 : top.2.covers = 1
                · rw [if_pos h3] at hs
                  rw [List.mem_singleton] at hs
                  subst hs
                  exact get?_append_cons pfx [] (digitToChar digit)
                · rw [if_neg h3] at hs
                  rw [List.mem_map] at hs
                  obtain ⟨i, _, rfl⟩ := hs
                  exact get?_append_cons pfx _ (digitToChar digit)
        rw [List.nodup_append]
        refine ⟨?_, ?_, ?_⟩
        · rw [List.nodup_flatten]
          constructor
          · intro l0 hl0
            rw [List.mem_map] at hl0
            obtain ⟨c, hcm, rfl⟩ := hl0
            obtain ⟨_, _, _, hcinv⟩ := hch c.1 c.2 (hks c hcm)
            have hcovc : ∀ nd, IsNodeOf nd c.2 → nd.covers = 10 ^ (L - nd.pfx.length) :=
              fun nd hnd => hcov nd (IsNodeOf.child c.1 (by simpa using hks c hcm) hnd)
            have hlenc : ∀ s0 ∈ c.2.terminals, s0.length = L :=
              fun s0 hs0 => hlen s0 (mem_terminals.mpr
                (Or.inr ⟨c.1, c.2, by simpa using hks c hcm, hs0⟩))
            have hszc : c.2.size ≤ n := by
              have := sizeChilds_le_of_mem (hks c hcm)
              omega
            exact ih c.2 L hcinv hcovc hlenc hszc
          · rw [List.pairwise_map]
            have hkey : (top :: rest).Pairwise (fun a b : Nat × DigitTree => a.1 ≠ b.1) := by
              have h1 : (childs.map Prod.fst).Nodup := noDupKeys_iff_nodup.mp hnd
              have h2 : ((top :: rest).map Prod.fst).Nodup := by
                rw [← hsort]
                exact (((sortChilds_perm childs).map Prod.fst).nodup_iff).mpr h1
              rw [List.Nodup, List.pairwise_map] at h2
              exact h2
            refine hkey.imp_of_mem ?_
            intro a b hma hmb hab s hsa hsb
            have h1 := hgetA a hma s hsa
            have h2 := hgetA b hmb s hsb
            rw [h1] at h2
            injection h2 with h2
            exact hab (digitToChar_inj (hch a.1 a.2 (hks a hma)).1
              (hch b.1 b.2 (hks b hmb)).1 h2)
        · rw [List.nodup_flatten]
          constructor
          · intro l0 hl0
            rw [List.mem_map] at hl0
            obtain ⟨digit, hdm, rfl⟩ := hl0
            show (if (lookupChild childs digit).isSome then ([] : List (List Char))
                  else if pfx = [] ∧ digit = 0 then []
                  else if top.2.covers = 1 then [pfx ++ [digitToChar digit]]
                  else (List.range top.2.covers).map
                         (fun i => pfx ++ digitToChar digit ::
                                     padZeros ((natRepr top.2.covers).length - 1) i)).Nodup
            by_cases h1 : (lookupChild childs digit).isSome = true
            · rw [if_pos h1]
              exact List.nodup_nil
            · rw [if_neg h1]
              by_cases h2 : pfx = [] ∧ digit = 0
              · rw [if_pos h2]
                exact List.nodup_nil
              · rw [if_neg h2]
                by_cases h3 : top.2.covers = 1
                · rw [if_pos h3]
                  exact List.nodup_singleton _
                · rw [if_neg h3]
                  refine List.Nodup.map_on ?_ (List.nodup_range _)
                  intro i hi j hj heq
                  set k := L - (pfx.length + 1) with hkdef
                  have hk1 : 1 ≤ k := by
                    by_contra hk
                    have hk0 : k = 0 := by omega
                    rw [htcov, hk0] at h3
                    simp at h3
                  have hwidth : (natRepr top.2.covers).length - 1 = k := by
                    rw [htcov, natRepr_pow_length]
                    omega
                  have hi' : i < 10 ^ k := by
                    have := List.mem_range.mp hi
                    rw [htcov] at this
                    exact this
                  have hj' : j < 10 ^ k := by
                    have := List.mem_range.mp hj
                    rw [htcov] at this
                    exact this
                  rw [hwidth, padZeros_eq_toDigitList k i hk1 hi',
                      padZeros_eq_toDigitList k j hk1 hj'] at heq
                  have h4 := List.append_cancel_left heq
                  injection h4 with _ h4
                  have h5 := congrArg digitListToNat h4
                  rw [digitListToNat_toDigitList k i hi',
                      digitListToNat_toDigitList k j hj'] at h5
                  exact h5
          · rw [List.pairwise_map]
            have h10 : (List.range 10).Pairwise (fun a b : Nat => a ≠ b) :=
              List.nodup_range 10
            refine h10.imp_of_mem ?_
            intro a b hma hmb hab s hsa hsb
            obtain ⟨_, hga⟩ := hgetB a s hsa
            obtain ⟨_, hgb⟩ := hgetB b s hsb
            rw [hga] at hgb
            injection hgb with hgb
            have ha9 : a ≤ 9 := by
              have := List.mem_range.mp hma
              omega
            have hb9 : b ≤ 9 := by
              have := List.mem_range.mp hmb
              omega
            exact hab (digitToChar_inj ha9 hb9 hgb)
        · intro s hsa hsb
          rw [List.mem_flatten] at hsa hsb
          obtain ⟨la, hla, hsla⟩ := hsa
          obtain ⟨lb, hlb, hslb⟩ := hsb
          rw [List.mem_map] at hla hlb
          obtain ⟨c, hcm, rfl⟩ := hla
          obtain ⟨digit, hdm, rfl⟩ := hlb
          have h1 := hgetA c hcm s hsla
          obtain ⟨hnone, h2⟩ := hgetB digit s hslb
          rw [h1] at h2
          injection h2 with h2
          have hd9 : digit ≤ 9 := by
            have := List.mem_range.mp hdm
            omega
          have hcd : c.1 = digit := digitToChar_inj (hch c.1 c.2 (hks c hcm)).1 hd9 h2
          rw [lookupChild_none_iff] at hnone
          apply hnone
          rw [← hcd]
          exact List.mem_map.mpr ⟨(c.1, c.2), hks c hcm, rfl⟩

/-! ### Node-of lemmas and the master enumeration characterization -/

theorem invB_of_isNodeOf {nd t : DigitTree} (hinv : t.invB = true)
    (h : IsNodeOf nd t) : nd.invB = true := by
  induction h with
  | refl => exact hinv
  | child d hmem _ ih =>
    exact ih ((invB_iff.mp hinv).2.2 d _ hmem).2.2.2

theorem isNodeOf_trans {a b c : DigitTree} (h1 : IsNodeOf a b) (h2 : IsNodeOf b c) :
    IsNodeOf a c := by
  induction h2 with
  | refl => exact h1
  | child d hmem _ ih => exact IsNodeOf.child d hmem ih

theorem terminals_subset_of_isNodeOf {nd t : DigitTree} (h : IsNodeOf nd t) :
    ∀ s ∈ nd.terminals, s ∈ t.terminals := by
  induction h with
  | refl => exact fun s hs => hs
  | child d hmem _ ih =>
    intro s hs
    exact mem_terminals.mpr (Or.inr ⟨d, _, hmem, ih s hs⟩)

/-- Every registered identifier of a well-formed tree consists of digits
only. -/
theorem terminals_digitsOnly : ∀ t : DigitTree, t.invB = true →
    ∀ s ∈ t.terminals, digitsOnly s = true := by
  intro t
  induction t using DigitTree.nodeInduction with
  | step t ih =>
    intro hinv s hs
    rcases mem_terminals.mp hs with ⟨_, rfl⟩ | ⟨d, c, hm, hsc⟩
    · exact (invB_iff.mp hinv).1
    · exact ih d c hm ((invB_iff.mp hinv).2.2 d c hm).2.2.2 s hsc

/-- A well-formed tree at the root whose registered identifiers never
start with the digit 0 has no child keyed 0. -/
theorem no_zero_child (t : DigitTree) (hinv : t.invB = true) (hpfx : t.pfx = [])
    (hhead : ∀ s ∈ t.terminals, s.get? 0 ≠ some ('0' : Char)) :
    lookupChild t.childs 0 = none := by
  rcases hlk : lookupChild t.childs 0 with _ | c
  · rfl
  · exfalso
    have hmem : (0, c) ∈ t.childs := lookupChild_mem hlk
    obtain ⟨_, _, hcot, hcinv⟩ := (invB_iff.mp hinv).2.2 0 c hmem
    obtain ⟨s0, hs0⟩ := List.exists_mem_of_ne_nil c.terminals
      (terminals_ne_nil c hcinv hcot)
    obtain ⟨hg, _⟩ := terminals_child_get t hinv 0 c hmem s0 hs0
    rw [hpfx] at hg
    have hst : s0 ∈ t.terminals := mem_terminals.mpr (Or.inr ⟨0, c, hmem, hs0⟩)
    exact hhead s0 hst (by simpa using hg)

/-- The values yielded by `_rec_availabe` at the root of an accounted,
well-formed trie are exactly the unregistered identifiers of length `L`
with no leading zero. -/
theorem rec_availabe_mem_iff (t : DigitTree) (L : Nat)
    (hinv : t.invB = true)
    (hcov : ∀ nd, IsNodeOf nd t → nd.covers = 10 ^ (L - nd.pfx.length))
    (hlen : ∀ s0 ∈ t.terminals, s0.length = L)
    (hcot : t.childs = [] → t.terminal = true)
    (hpfx : t.pfx = [])
    (hlk0 : lookupChild t.childs 0 = none) :
    ∀ s, s ∈ t.rec_availabe ↔
      (s.length = L ∧ digitsOnly s = true ∧ s ∉ t.terminals ∧
        s.get? 0 ≠ some ('0' : Char)) := by
  intro s
  show s ∈ recAvailabeF t.size t ↔ _
  constructor
  · intro hs
    obtain ⟨h1, h2, _, h4⟩ := recAvailabeF_sound t.size t L hinv hcov hlen le_rfl s hs
    exact ⟨h1, h2, h4, recAvailabeF_head t.size t hinv hpfx hlk0 s hs⟩
  · rintro ⟨h1, h2, h3, h4⟩
    exact recAvailabeF_mem t.size t L hinv hcov hlen hcot (fun _ => hlk0) le_rfl
      s h1 h2 (hpfx ▸ List.nil_prefix) h3 (fun _ => h4)

/-! ### The keyspace: counting valid identifiers -/

theorem mem_keyspace {L : Nat} (hL : 1 ≤ L) (s : List Char) :
    s ∈ keyspace L ↔ (s.length = L ∧ digitsOnly s = true ∧
      s.get? 0 ≠ some ('0' : Char)) := by
  unfold keyspace
  rw [Finset.mem_image]
  constructor
  · rintro ⟨i, hi, rfl⟩
    rw [Finset.mem_Ico] at hi
    refine ⟨toDigitList_length L i, toDigitList_digitsOnly L i, ?_⟩
    rw [List.get?_zero, toDigitList_head L i hL hi.2]
    intro hcon
    injection hcon with hcon
    have hp : 0 < (10:ℕ) ^ (L - 1) := pow_pos (by omega) _
    have hdiv9 : i / 10 ^ (L - 1) ≤ 9 := by
      have h10 : (10:ℕ) ^ L = 10 ^ (L - 1) * 10 := by
        conv_lhs => rw [show L = (L - 1) + 1 by omega]
        rw [pow_succ]
      have := (Nat.div_lt_iff_lt_mul hp).mpr (show i < 10 * 10 ^ (L - 1) by omega)
      omega
    have hz := (digitToChar_eq_zero_iff hdiv9).mp hcon
    have h1 : 1 ≤ i / 10 ^ (L - 1) := (Nat.one_le_div_iff hp).mpr hi.1
    omega
  · rintro ⟨h1, h2, h3⟩
    refine ⟨digitListToNat s, ?_, toDigitList_digitListToNat L s h1 h2⟩
    rw [Finset.mem_Ico]
    have hlt : digitListToNat s < 10 ^ L := by
      have := digitListToNat_lt s h2
      rw [h1] at this
      exact this
    refine ⟨?_, hlt⟩
    by_contra hge
    push_neg at hge
    have hs_eq : toDigitList L (digitListToNat s) = s :=
      toDigitList_digitListToNat L s h1 h2
    have hh := toDigitList_head L (digitListToNat s) hL hlt
    rw [hs_eq] at hh
    have hdiv0 : digitListToNat s / 10 ^ (L - 1) = 0 := Nat.div_eq_of_lt hge
    rw [hdiv0] at hh
    apply h3
    rw [List.get?_zero, hh]
    rfl

theorem keyspace_card {L : Nat} (hL : 1 ≤ L) :
    (keyspace L).card = 9 * 10 ^ (L - 1) := by
  unfold keyspace
  rw [Finset.card_image_of_injOn]
  · rw [Nat.card_Ico]
    have h10 : (10:ℕ) ^ L = 10 ^ (L - 1) * 10 := by
      conv_lhs => rw [show L = (L - 1) + 1 by omega]
      rw [pow_succ]
    omega
  · intro i hi j hj heq
    rw [Finset.mem_coe, Finset.mem_Ico] at hi hj
    have hv := congrArg digitListToNat heq
    rw [digitListToNat_toDigitList L i hi.2, digitListToNat_toDigitList L j hj.2] at hv
    exact hv

/-- Counting: the enumeration and the registered identifiers together
partition the full no-leading-zero keyspace of length `L`. -/
theorem rec_availabe_count (t : DigitTree) (L : Nat) (hL : 1 ≤ L)
    (hinv : t.invB = true)
    (hcov : ∀ nd, IsNodeOf nd t → nd.covers = 10 ^ (L - nd.pfx.length))
    (hlen : ∀ s0 ∈ t.terminals, s0.length = L)
    (hcot : t.childs = [] → t.terminal = true)
    (hpfx : t.pfx = [])
    (hlk0 : lookupChild t.childs 0 = none)
    (hhead : ∀ s0 ∈ t.terminals, s0.get? 0 ≠ some ('0' : Char)) :
    t.rec_availabe.length + t.terminals.length = 9 * 10 ^ (L - 1) := by
  have hiff := rec_availabe_mem_iff t L hinv hcov hlen hcot hpfx hlk0
  have hndout : t.rec_availabe.Nodup :=
    recAvailabeF_nodup t.size t L hinv hcov hlen le_rfl
  have hndterm : t.terminals.Nodup := terminals_nodup t hinv
  have hset : t.rec_availabe.toFinset = keyspace L \ t.terminals.toFinset := by
    ext s
    rw [List.mem_toFinset, Finset.mem_sdiff, List.mem_toFinset, mem_keyspace hL, hiff s]
    tauto
  have hsub : t.terminals.toFinset ⊆ keyspace L := by
    intro s hs
    rw [List.mem_toFinset] at hs
    rw [mem_keyspace hL]
    exact ⟨hlen s hs, terminals_digitsOnly t hinv s hs, hhead s hs⟩
  have h1 : t.rec_availabe.toFinset.card = t.rec_availabe.length :=
    List.toFinset_card_of_nodup hndout
  have h2 : t.terminals.toFinset.card = t.terminals.length :=
    List.toFinset_card_of_nodup hndterm
  have h3 : (keyspace L \ t.terminals.toFinset).card
      = (keyspace L).card - t.terminals.toFinset.card := Finset.card_sdiff hsub
  have h4 : t.terminals.toFinset.card ≤ (keyspace L).card := Finset.card_le_card hsub
  have h5 := keyspace_card (L := L) hL
  rw [hset] at h1
  omega

/-- A successful accounting pass both certifies the common length and
establishes the `PopRel` facts. -/
theorem populate_rel_of_ok {t t' : DigitTree} {L : Nat}
    (hpop : t.populate_used L = .ok t') :
    PopRel L t t' ∧ (∀ s ∈ t.terminals, s.length = L) := by
  have hlen := (populate_len_aux t.size).1 t le_rfl L t' hpop
  obtain ⟨t'', hok, hrel⟩ := populate_ok_of_lengths t L hlen
  rw [hpop] at hok
  injection hok with he
  subst he
  exact ⟨hrel, hlen⟩

/-- The registered identifiers below a node, all of length `L`, number at
most `10^(L - len(prefix))`: they embed into the numeric block below the
node's prefix. -/
theorem terminals_length_le (nd : DigitTree) (L : Nat) (hinv : nd.invB = true)
    (hlen : ∀ s ∈ nd.terminals, s.length = L) :
    nd.terminals.length ≤ 10 ^ (L - nd.pfx.length) := by
  set k := L - nd.pfx.length with hk
  set f : List Char → Nat := fun s => digitListToNat (s.drop nd.pfx.length) with hf
  have hdrop : ∀ s ∈ nd.terminals, (s.drop nd.pfx.length).length = k ∧
      digitsOnly (s.drop nd.pfx.length) = true ∧
      s = nd.pfx ++ s.drop nd.pfx.length := by
    intro s hs
    obtain ⟨⟨r, hr⟩, hdigs⟩ := terminals_isPre nd hinv s hs
    have hdr : s.drop nd.pfx.length = r := by
      rw [← hr]
      exact List.drop_left _ _
    have hslen : s.length = L := hlen s hs
    have hrlen : r.length = k := by
      rw [← hr] at hslen
      simp only [List.length_append] at hslen
      omega
    have hdig : digitsOnly r = true := by
      rw [← hr, digitsOnly_append] at hdigs
      exact hdigs.2
    rw [hdr]
    exact ⟨hrlen, hdig, hr.symm⟩
  have hmapnd : (nd.terminals.map f).Nodup := by
    apply (terminals_nodup nd hinv).map_on
    intro s1 h1 s2 h2 hfeq
    obtain ⟨hl1, hd1, he1⟩ := hdrop s1 h1
    obtain ⟨hl2, hd2, he2⟩ := hdrop s2 h2
    have hv1 : toDigitList k (f s1) = s1.drop nd.pfx.length :=
      toDigitList_digitListToNat k _ hl1 hd1
    have hv2 : toDigitList k (f s2) = s2.drop nd.pfx.length :=
      toDigitList_digitListToNat k _ hl2 hd2
    rw [hfeq] at hv1
    rw [he1, he2, ← hv1, ← hv2]
  have hmem : ∀ x ∈ nd.terminals.map f, x ∈ Finset.range (10 ^ k) := by
    intro x hx
    rw [List.mem_map] at hx
    obtain ⟨s, hs, rfl⟩ := hx
    obtain ⟨hl, hd, _⟩ := hdrop s hs
    rw [Finset.mem_range]
    have := digitListToNat_lt _ hd
    rw [hl] at this
    exact this
  calc nd.terminals.length = (nd.terminals.map f).length := (List.length_map _ _).symm
    _ = (nd.terminals.map f).toFinset.card := (List.toFinset_card_of_nodup hmapnd).symm
    _ ≤ (Finset.range (10 ^ k)).card := Finset.card_le_card (by
        intro x hx
        rw [List.mem_toFinset] at hx
        exact hmem x hx)
    _ = 10 ^ k := Finset.card_range _

/-- One step of the enumeration splits into the child part followed by
the missing-digit block part. -/
theorem recAvailabeF_succ_decomp (m : Nat) (childs : List (Nat × DigitTree))
    (pfx : List Char) (term : Bool) (u v : Nat) (top : Nat × DigitTree)
    (rest : List (Nat × DigitTree)) (hsort : sortChilds childs = top :: rest) :
    recAvailabeF (m + 1) (.mk childs pfx term u v) =
      ((top :: rest).map (fun e => recAvailabeF m e.2)).flatten ++
      ((List.range 10).map (fun digit =>
          if (lookupChild childs digit).isSome then []
          else if pfx = [] ∧ digit = 0 then []
          else if top.2.covers = 1 then [pfx ++ [digitToChar digit]]
          else (List.range top.2.covers).map
                 (fun i => pfx ++ digitToChar digit ::
                   padZeros ((natRepr top.2.covers).length - 1) i))).flatten := by
  simp only [recAvailabeF]
  rw [hsort]

/-- The enumeration of a node of the trie appears contiguously inside the
enumeration of the whole trie. -/
theorem rec_availabe_infix {t nd : DigitTree} (h : IsNodeOf nd t) :
    ∀ fuel, t.invB = true → t.size ≤ fuel →
    ∃ A C, recAvailabeF fuel t = A ++ nd.rec_availabe ++ C := by
  induction h with
  | refl =>
    intro fuel _ hf
    exact ⟨[], [], by rw [List.nil_append, List.append_nil,
      ← rec_availabe_eq_recAvailabeF hf]⟩
  | child d hmem hsub ih =>
    rename_i c t0
    intro fuel hinv hf
    cases fuel with
    | zero => exact absurd hf (by have := t0.size_pos; omega)
    | succ m =>
      cases t0 with
      | mk childs pfx term u v =>
        simp only [DigitTree.childs_mk] at hmem
        rw [DigitTree.size_def] at hf
        have hcinv : c.invB = true := ((invB_iff.mp hinv).2.2 d c hmem).2.2.2
        have hcsz : c.size ≤ m := by
          have := sizeChilds_le_of_mem hmem
          omega
        obtain ⟨A', C', hAC⟩ := ih m hcinv hcsz
        have hcmem_sort : (d, c) ∈ sortChilds childs := mem_sortChilds.mpr hmem
        obtain ⟨P, Q, hPQ⟩ := List.append_of_mem hcmem_sort
        rcases hsort : sortChilds childs with _ | ⟨top, rest⟩
        · rw [hsort] at hPQ
          exact absurd hPQ (by simp)
        · rw [hsort] at hPQ
          have hdec := recAvailabeF_succ_decomp m childs pfx term u v top rest hsort
          rw [hdec, hPQ, List.map_append, List.flatten_append, List.map_cons,
            List.flatten_cons]
          have hproj : ((d, c) : Nat × DigitTree).2 = c := rfl
          rw [hproj, hAC]
          refine ⟨(List.map (fun e => recAvailabeF m e.2) P).flatten ++ A',
            C' ++ ((List.map (fun e => recAvailabeF m e.2) Q).flatten ++
              ((List.range 10).map (fun digit =>
                if (lookupChild childs digit).isSome then []
                else if pfx = [] ∧ digit = 0 then []
                else if top.2.covers = 1 then [pfx ++ [digitToChar digit]]
                else (List.range top.2.covers).map
                       (fun i => pfx ++ digitToChar digit ::
                         padZeros ((natRepr top.2.covers).length - 1) i))).flatten), ?_⟩
          simp only [List.append_assoc]

/-! ### Claim theorems -/

theorem childs_ne_nil_of_isEmpty_false {t : DigitTree} (h : t.childs.isEmpty = false) :
    t.childs ≠ [] := by
  intro hc
  rw [hc] at h
  cases h

/-- C1: the specification says that on a trie that already has nodes the
enumeration length is taken from the existing terminal identifiers and
the seed plays no role, so that on the trie built from 1, 2, 3, 4 a
seedless `available()` yields 5..9.  The code instead always runs the
accounting pass with the seed's length (4 for the default seed), so the
seedless call fails with the length-mismatch error; the expected values
appear only when a length-1 seed is passed explicitly. -/
theorem C1_seedless_available_errors :
    treeC1.available none = .error (.lengthMismatch ['1'] 4) ∧
    availList (treeC1.available (some ['9'])) = [['5'], ['6'], ['7'], ['8'], ['9']] :=
  ⟨rfl, rfl⟩

/-- C2: refutation of the ascending-digit tie-break.  In the trie built
by inserting 21 and then 11, both root children have `used = 1`, yet the
enumeration lists the whole subtree of the child keyed 2 (inserted
first) before the subtree of the child keyed 1: equally-used siblings
are visited in insertion order, not by ascending digit. -/
theorem C2_tie_break_by_insertion_order :
    (lookupChild treeC2p.childs 1).map DigitTree.used = some 1 ∧
    (lookupChild treeC2p.childs 2).map DigitTree.used = some 1 ∧
    treeC2p.rec_availabe =
      (((List.range 10).filter (fun i => i ≠ 1)).map (fun i => ['2', digitToChar i]))
      ++ (((List.range 10).filter (fun i => i ≠ 1)).map (fun i => ['1', digitToChar i]))
      ++ (((List.range 7).map (fun d =>
            (List.range 10).map (fun i => [digitToChar (d + 3), digitToChar i]))).flatten) := by
  refine ⟨rfl, rfl, ?_⟩
  decide

/-- C2 (amended): the enumeration orders the children of a node by
`used` descending, and breaks ties by preserving the original child
(insertion) order — the sort is stable. -/
theorem C2_amended_stable_sort : ∀ l : List (Nat × DigitTree),
    (sortChilds l).Pairwise usedGE ∧
    List.Perm (sortChilds l) l ∧
    ∀ u : Nat, (sortChilds l).filter (fun p => p.2.used == u) =
      l.filter (fun p => p.2.used == u) :=
  fun l => ⟨sortChilds_pairwise l, sortChilds_perm l, fun u => sortChilds_filter l u⟩

set_option maxRecDepth 10000 in
/-- C3: refutation of the claimed output for `available(seed="170")` on
the empty trie.  The specification's list omits the ten-value block
under the prefix 11; the code does yield 110..119 (the missing-digit
loop at the node 1 covers every digit other than 7, including 1).  The
part of the claim that 170 itself is registered and never yielded is
correct. -/
theorem C3_empty_tree_seed170_flaw :
    availListC3 ≠ claimedC3 ∧
    ['1', '1', '0'] ∈ availListC3 ∧
    ['1', '1', '0'] ∉ claimedC3 ∧
    ['1', '7', '0'] ∉ availListC3 := by
  refine ⟨by decide, by decide, by decide, by decide⟩

set_option maxRecDepth 10000 in
/-- C3 (amended): on the empty trie, `available(seed="170")` registers
170 and yields exactly 171..179, then the ten-value blocks under the
prefixes 1d for every digit d other than 7 (including 11x), then the
hundred-value blocks under the first digits 2..9; 170 itself is never
yielded. -/
theorem C3_amended_empty_tree_seed170 :
    availListC3 = actualC3 ∧ ['1', '7', '0'] ∉ actualC3 := by
  refine ⟨by decide, by decide⟩

/-- C4: completeness.  For a non-empty list of distinct all-digit
identifiers of one length `L` with no leading zero, building the trie
and running the accounting pass for `L` succeeds, and the number of
inserted identifiers plus the number of enumerated free identifiers is
exactly `9 * 10^(L-1)`. -/
theorem C4_completeness_count (l : List (List Char)) (L : Nat) (hL : 1 ≤ L)
    (hne : l ≠ []) (hnd : l.Nodup)
    (hlen : ∀ s ∈ l, s.length = L) (hdig : ∀ s ∈ l, digitsOnly s = true)
    (hhead : ∀ s ∈ l, s.get? 0 ≠ some ('0' : Char)) :
    ∃ t t', DigitTree.from_list l = .ok t ∧ t.populate_used L = .ok t' ∧
      l.length + t'.rec_availabe.length = 9 * 10 ^ (L - 1) := by
  obtain ⟨t, hok, hpfx, hinv, hiff, hcot0⟩ := from_list_props l hdig
  have hcot : t.childs = [] → t.terminal = true := by
    rcases hcot0 with rfl | hcot
    · exfalso
      rcases l with _ | ⟨s0, l'⟩
      · exact hne rfl
      · have hmem : s0 ∈ emptyTree.terminals := (hiff s0).mpr (List.mem_cons_self _ _)
        rw [show emptyTree.terminals = [] from rfl] at hmem
        cases hmem
    · exact hcot
  have htlen : ∀ s ∈ t.terminals, s.length = L := fun s hs => hlen s ((hiff s).mp hs)
  obtain ⟨t', hpok, hrel⟩ := populate_ok_of_lengths t L htlen
  obtain ⟨hpfx', hterm', hterms', hinv', hchiff, hpn⟩ := hrel
  refine ⟨t, t', hok, hpok, ?_⟩
  have hinvt' : t'.invB = true := hinv' hinv
  have hcovt' : ∀ nd, IsNodeOf nd t' → nd.covers = 10 ^ (L - nd.pfx.length) :=
    fun nd hnd => (hpn nd hnd).1
  have hlent' : ∀ s ∈ t'.terminals, s.length = L := by
    rw [hterms']
    exact htlen
  have hcott' : t'.childs = [] → t'.terminal = true := by
    intro hc
    rw [hterm']
    exact hcot (hchiff.mp hc)
  have hpfxt' : t'.pfx = [] := by rw [hpfx', hpfx]
  have hheadt' : ∀ s ∈ t'.terminals, s.get? 0 ≠ some ('0' : Char) := by
    intro s hs
    rw [hterms'] at hs
    exact hhead s ((hiff s).mp hs)
  have hlk0 : lookupChild t'.childs 0 = none := no_zero_child t' hinvt' hpfxt' hheadt'
  have hcount := rec_availabe_count t' L hL hinvt' hcovt' hlent' hcott' hpfxt' hlk0 hheadt'
  have htermnd : t'.terminals.Nodup := terminals_nodup t' hinvt'
  have hseteq : t'.terminals.toFinset = l.toFinset := by
    ext s
    rw [List.mem_toFinset, List.mem_toFinset, hterms']
    exact hiff s
  have hl1 : t'.terminals.toFinset.card = t'.terminals.length :=
    List.toFinset_card_of_nodup htermnd
  have hl2 : l.toFinset.card = l.length := List.toFinset_card_of_nodup hnd
  rw [hseteq, hl2] at hl1
  omega

/-- C4 witness: the singleton trie over the identifier 1 with `L = 1`. -/
theorem C4_completeness_count_witness :
    ((1:Nat) ≤ 1 ∧ ([['1']] : List (List Char)) ≠ [] ∧
      ([['1']] : List (List Char)).Nodup ∧
      (∀ s ∈ ([['1']] : List (List Char)), s.length = 1) ∧
      (∀ s ∈ ([['1']] : List (List Char)), digitsOnly s = true) ∧
      (∀ s ∈ ([['1']] : List (List Char)), s.get? 0 ≠ some ('0' : Char))) ∧
    (∃ t t', DigitTree.from_list [['1']] = .ok t ∧ t.populate_used 1 = .ok t' ∧
      ([['1']] : List (List Char)).length + t'.rec_availabe.length = 9 * 10 ^ (1 - 1)) :=
  ⟨⟨le_rfl, by decide, by decide, by decide, by decide, by decide⟩,
   C4_completeness_count [['1']] 1 le_rfl (by decide) (by decide) (by decide)
     (by decide) (by decide)⟩

/-- C5: disjointness.  After a successful accounting pass, every value
yielded by the enumeration is not a registered identifier, and looking
it up in the accounted trie returns not-found. -/
theorem C5_disjointness (t t' : DigitTree) (L : Nat) (hinv : t.invB = true)
    (hpop : t.populate_used L = .ok t') :
    ∀ s ∈ t'.rec_availabe, s ∉ t'.terminals ∧ t'.find_node s = .ok none := by
  obtain ⟨⟨hpfx', hterm', hterms', hinv', hchiff, hpn⟩, hlen⟩ := populate_rel_of_ok hpop
  have hinvt' := hinv' hinv
  have hcovt' : ∀ nd, IsNodeOf nd t' → nd.covers = 10 ^ (L - nd.pfx.length) :=
    fun nd hnd => (hpn nd hnd).1
  have hlent' : ∀ s ∈ t'.terminals, s.length = L := by
    rw [hterms']
    exact hlen
  intro s hs
  obtain ⟨hsL, hsdig, hspre, hsnt⟩ :=
    recAvailabeF_sound t'.size t' L hinvt' hcovt' hlent' le_rfl s hs
  refine ⟨hsnt, ?_⟩
  obtain ⟨r, hr, hrs⟩ := findNodeF_ok t'.size t' s hinvt' hspre hsdig le_rfl
  cases r with
  | none => exact hr
  | some x =>
    exfalso
    exact hsnt (hrs.mp rfl)

/-- C5 witness: the singleton trie over the identifier 1, accounted for
length 1. -/
theorem C5_disjointness_witness :
    (c5t.invB = true) ∧
    (∀ s ∈ c5t'.rec_availabe, s ∉ c5t'.terminals ∧ c5t'.find_node s = .ok none) :=
  ⟨by decide, C5_disjointness c5t c5t' 1 (by decide) rfl⟩

/-- C6: length invariant.  After a successful accounting pass for `L`,
every value yielded by the enumeration has length exactly `L`. -/
theorem C6_yield_length (t t' : DigitTree) (L : Nat) (hinv : t.invB = true)
    (hpop : t.populate_used L = .ok t') :
    ∀ s ∈ t'.rec_availabe, s.length = L := by
  obtain ⟨⟨hpfx', hterm', hterms', hinv', hchiff, hpn⟩, hlen⟩ := populate_rel_of_ok hpop
  have hinvt' := hinv' hinv
  have hcovt' : ∀ nd, IsNodeOf nd t' → nd.covers = 10 ^ (L - nd.pfx.length) :=
    fun nd hnd => (hpn nd hnd).1
  have hlent' : ∀ s ∈ t'.terminals, s.length = L := by
    rw [hterms']
    exact hlen
  intro s hs
  exact (recAvailabeF_sound t'.size t' L hinvt' hcovt' hlent' le_rfl s hs).1

/-- C6 witness: the singleton trie over the identifier 1, accounted for
length 1. -/
theorem C6_yield_length_witness :
    (c5t.invB = true) ∧ (∀ s ∈ c5t'.rec_availabe, s.length = 1) :=
  ⟨by decide, C6_yield_length c5t c5t' 1 (by decide) rfl⟩

/-- C7: priority ordering.  In an accounted trie, for two sibling
children of any node, if one sibling's `used` count is strictly greater
than the other's, the enumeration of the whole trie lists every value of
the more-used sibling's subtree before any value of the less-used
sibling's subtree. -/
theorem C7_priority_order (t t' : DigitTree) (L : Nat) (hinv : t.invB = true)
    (hpop : t.populate_used L = .ok t') (nd : DigitTree) (hnd : IsNodeOf nd t')
    (d1 d2 : Nat) (c1 c2 : DigitTree) (h1 : (d1, c1) ∈ nd.childs)
    (h2 : (d2, c2) ∈ nd.childs) (hgt : c2.used < c1.used) :
    ∃ A B, t'.rec_availabe = A ++ B ∧
      (∀ s ∈ c1.rec_availabe, s ∈ A) ∧ (∀ s ∈ c2.rec_availabe, s ∈ B) := by
  have hinvt' : t'.invB = true := (populate_rel_of_ok hpop).1.2.2.2.1 hinv
  have hm1 : (d1, c1) ∈ sortChilds nd.childs := mem_sortChilds.mpr h1
  have hm2 : (d2, c2) ∈ sortChilds nd.childs := mem_sortChilds.mpr h2
  obtain ⟨P, Q1, Q2, hsplit⟩ := sorted_split (sortChilds_pairwise nd.childs) hm1 hm2
    (show ((d2, c2) : Nat × DigitTree).2.used < ((d1, c1) : Nat × DigitTree).2.used from hgt)
  obtain ⟨X, Y, hXY⟩ := rec_availabe_infix hnd t'.size hinvt' le_rfl
  cases nd with
  | mk childs pfx term u v =>
    simp only [DigitTree.childs_mk] at h1 h2 hsplit
    obtain ⟨m, hm⟩ : ∃ m, sizeChilds childs = m := ⟨_, rfl⟩
    have hsz : (DigitTree.mk childs pfx term u v).size = m + 1 := by
      rw [DigitTree.size_def, hm]
      omega
    have hc1sz : c1.size ≤ m := by
      have := sizeChilds_le_of_mem h1
      omega
    have hc2sz : c2.size ≤ m := by
      have := sizeChilds_le_of_mem h2
      omega
    have hc1rec : c1.rec_availabe = recAvailabeF m c1 := rec_availabe_eq_recAvailabeF hc1sz
    have hc2rec : c2.rec_availabe = recAvailabeF m c2 := rec_availabe_eq_recAvailabeF hc2sz
    rcases hsort : sortChilds childs with _ | ⟨top, rest⟩
    · rw [hsort] at hsplit
      exact absurd hsplit (by simp)
    · rw [hsort] at hsplit
      have hdec := recAvailabeF_succ_decomp m childs pfx term u v top rest hsort
      have hreceq : (DigitTree.mk childs pfx term u v).rec_availabe
          = recAvailabeF (m + 1) (.mk childs pfx term u v) :=
        rec_availabe_eq_recAvailabeF (by omega)
      obtain ⟨Bl, hdecBl⟩ : ∃ Bl, recAvailabeF (m + 1) (.mk childs pfx term u v) =
          ((top :: rest).map (fun e => recAvailabeF m e.2)).flatten ++ Bl := ⟨_, hdec⟩
      have hkey : (DigitTree.mk childs pfx term u v).rec_availabe =
          ((List.map (fun e => recAvailabeF m e.2) P).flatten ++ c1.rec_availabe) ++
          ((List.map (fun e => recAvailabeF m e.2) Q1).flatten ++
            (c2.rec_availabe ++
              ((List.map (fun e => recAvailabeF m e.2) Q2).flatten ++ Bl))) := by
        rw [hreceq, hdecBl, hsplit, hc1rec, hc2rec]
        simp only [List.map_append, List.map_cons, List.flatten_append,
          List.flatten_cons, List.append_assoc]
      refine ⟨X ++ ((List.map (fun e => recAvailabeF m e.2) P).flatten ++ c1.rec_availabe),
        ((List.map (fun e => recAvailabeF m e.2) Q1).flatten ++
          (c2.rec_availabe ++
            ((List.map (fun e => recAvailabeF m e.2) Q2).flatten ++ Bl))) ++ Y,
        ?_, ?_, ?_⟩
      · show recAvailabeF t'.size t' = _
        rw [hXY, hkey]
        simp only [List.append_assoc]
      · intro s hs
        simp only [List.mem_append]
        exact Or.inr (Or.inr hs)
      · intro s hs
        simp only [List.mem_append]
        exact Or.inl (Or.inr (Or.inl hs))

/-- C7 witness: in the accounted trie over 11, 12, 21 the root child
keyed 1 (used = 2) is drained before the root child keyed 2 (used = 1). -/
theorem C7_priority_order_witness :
    (c7t.invB = true ∧ c7c2.used < c7c1.used) ∧
    (∃ A B, c7t'.rec_availabe = A ++ B ∧
      (∀ s ∈ c7c1.rec_availabe, s ∈ A) ∧ (∀ s ∈ c7c2.rec_availabe, s ∈ B)) :=
  ⟨⟨by decide, by decide⟩,
   C7_priority_order c7t c7t' 2 (by decide) rfl c7t' (IsNodeOf.refl c7t') 1 2 c7c1 c7c2
     (lookupChild_mem rfl) (lookupChild_mem rfl) (by decide)⟩

/-- C8: malformed identifiers.  Inserting a non-digit string into a
well-formed trie fails with the malformed error during that call;
looking it up either reports not-found (when the walk stops early) or
fails with the malformed error at the branching digit; and the
accounting pass never raises the malformed error, so the failure is
never deferred to it. -/
theorem C8_malformed_surfaced (t : DigitTree) (node : List Char)
    (hinv : t.invB = true) (hpfx : t.pfx = []) (hnd : ¬ digitsOnly node = true) :
    t.add_node node = .error .malformed ∧
    (t.find_node node = .ok none ∨ t.find_node node = .error .malformed) ∧
    (∀ L : Nat, t.populate_used L ≠ .error .malformed) := by
  have hpre : t.pfx <+: node := by
    rw [hpfx]
    exact List.nil_prefix
  refine ⟨?_, ?_, fun L => populate_never_malformed t L⟩
  · show addNodeF (t.size + node.length + 1) t node = .error .malformed
    exact addNodeF_malformed _ t node hinv hpre hnd (by omega)
  · exact findNodeF_not_digits t.size t node hinv hpre hnd le_rfl

/-- C8 witness: the identifier "a" on the empty trie. -/
theorem C8_malformed_surfaced_witness :
    (emptyTree.invB = true ∧ ¬ digitsOnly ['a'] = true) ∧
    (emptyTree.add_node ['a'] = .error .malformed ∧
      (emptyTree.find_node ['a'] = .ok none ∨
        emptyTree.find_node ['a'] = .error .malformed) ∧
      (∀ L : Nat, emptyTree.populate_used L ≠ .error .malformed)) :=
  ⟨⟨by decide, by decide⟩,
   C8_malformed_surfaced emptyTree ['a'] (by decide) rfl (by decide)⟩

/-- C9: accounting invariants.  Immediately after a successful
accounting pass for `L`, every node satisfies
`covers = 10^(L - len(prefix))`, `used` equals the sum of the children's
`used` plus one if the node is terminal, `used ≤ covers`, and all
sibling children of one parent have equal `covers`. -/
theorem C9_accounting_invariants (t t' : DigitTree) (L : Nat) (hinv : t.invB = true)
    (hpop : t.populate_used L = .ok t') :
    ∀ nd, IsNodeOf nd t' →
      nd.covers = 10 ^ (L - nd.pfx.length) ∧
      nd.used = (nd.childs.map (fun p => p.2.used)).sum +
        (if nd.terminal = true then 1 else 0) ∧
      nd.used ≤ nd.covers ∧
      (∀ d1 c1 d2 c2, (d1, c1) ∈ nd.childs → (d2, c2) ∈ nd.childs →
        c1.covers = c2.covers) := by
  obtain ⟨⟨hpfx', hterm', hterms', hinv', hchiff, hpn⟩, hlen⟩ := populate_rel_of_ok hpop
  have hinvt' := hinv' hinv
  intro nd hnd
  obtain ⟨hcov, husedterm, husedsum⟩ := hpn nd hnd
  have hndinv : nd.invB = true := invB_of_isNodeOf hinvt' hnd
  have hndlen : ∀ s ∈ nd.terminals, s.length = L := by
    intro s hs
    have hmem : s ∈ t'.terminals := terminals_subset_of_isNodeOf hnd s hs
    rw [hterms'] at hmem
    exact hlen s hmem
  refine ⟨hcov, husedsum, ?_, ?_⟩
  · rw [husedterm, hcov]
    exact terminals_length_le nd L hndinv hndlen
  · intro d1 c1 d2 c2 hm1 hm2
    have hn1 : IsNodeOf c1 t' :=
      isNodeOf_trans (IsNodeOf.child d1 hm1 (IsNodeOf.refl c1)) hnd
    have hn2 : IsNodeOf c2 t' :=
      isNodeOf_trans (IsNodeOf.child d2 hm2 (IsNodeOf.refl c2)) hnd
    have hc1 := (hpn c1 hn1).1
    have hc2 := (hpn c2 hn2).1
    have hp1 : c1.pfx = nd.pfx ++ [digitToChar d1] :=
      ((invB_iff.mp hndinv).2.2 d1 c1 hm1).2.1
    have hp2 : c2.pfx = nd.pfx ++ [digitToChar d2] :=
      ((invB_iff.mp hndinv).2.2 d2 c2 hm2).2.1
    rw [hc1, hc2, hp1, hp2]
    simp [List.length_append]

/-- C9 witness: the accounted trie over 11, 12, 21. -/
theorem C9_accounting_invariants_witness :
    (c7t.invB = true) ∧
    (∀ nd, IsNodeOf nd c7t' →
      nd.covers = 10 ^ (2 - nd.pfx.length) ∧
      nd.used = (nd.childs.map (fun p => p.2.used)).sum +
        (if nd.terminal = true then 1 else 0) ∧
      nd.used ≤ nd.covers ∧
      (∀ d1 c1 d2 c2, (d1, c1) ∈ nd.childs → (d2, c2) ∈ nd.childs →
        c1.covers = c2.covers)) :=
  ⟨by decide, C9_accounting_invariants c7t c7t' 2 (by decide) rfl⟩

/-- A seedless `available` call on a trie that already has children
skips the seed insertion and propagates any accounting failure. -/
theorem available_none_of_populate_error (t : DigitTree)
    (hce : t.childs.isEmpty = false) {e : DTErr}
    (hp : t.populate_used 4 = .error e) :
    t.available none = .error e := by
  show ((match (if t.childs.isEmpty then t.add_node defaultSeed else Except.ok t) with
        | Except.error e0 => Except.error e0
        | Except.ok t1 =>
          match t1.populate_used defaultSeed.length with
          | Except.error e0 => Except.error e0
          | Except.ok t2 => Except.ok (t2, t2.rec_availabe)) :
      Except DTErr (DigitTree × List (List Char))) = Except.error e
  rw [hce]
  show ((match t.populate_used defaultSeed.length with
        | Except.error e0 => Except.error e0
        | Except.ok t2 => Except.ok (t2, t2.rec_availabe)) :
      Except DTErr (DigitTree × List (List Char))) = Except.error e
  rw [show defaultSeed.length = 4 from rfl, hp]

/-- C10: the omitted / `None` seed behaves exactly as the seed 1000: a
seedless call equals the call with seed 1000 on every trie; on the empty
trie it inserts 1000 as a used identifier and enumerates exactly the
unregistered length-4 identifiers without leading zero; and on a
non-empty trie it runs the accounting pass with `L = 4`, failing with
the length-mismatch error whenever some registered identifier does not
have length 4. -/
theorem C10_default_seed (t : DigitTree)
    (hne : t.childs ≠ []) (s0 : List Char) (hs0 : s0 ∈ t.terminals)
    (hs0len : s0.length ≠ 4) :
    (∀ u : DigitTree, u.available none = u.available (some defaultSeed)) ∧
    (∃ p, t.available none = .error (.lengthMismatch p 4)) ∧
    (emptyTree.available none = .ok (c10t2, c10t2.rec_availabe) ∧
      (∀ s, s ∈ c10t2.terminals ↔ s = defaultSeed) ∧
      (∀ s, s ∈ c10t2.rec_availabe ↔ (s.length = 4 ∧ digitsOnly s = true ∧
        s ≠ defaultSeed ∧ s.get? 0 ≠ some ('0' : Char)))) := by
  refine ⟨fun u => rfl, ?_, rfl, ?_, ?_⟩
  · obtain ⟨p, hp⟩ := populate_error_of_bad_length t 4 ⟨s0, hs0, hs0len⟩
    have hce : t.childs.isEmpty = false := by
      cases htc : t.childs with
      | nil => exact absurd htc hne
      | cons a l2 => rfl
    exact ⟨p, available_none_of_populate_error t hce hp⟩
  · intro s
    rw [show c10t2.terminals = [defaultSeed] from rfl]
    exact List.mem_singleton
  · have hpop : c10t1.populate_used 4 = .ok c10t2 := rfl
    obtain ⟨⟨hpfx', hterm', hterms', hinv', hchiff, hpn⟩, hlen1⟩ := populate_rel_of_ok hpop
    have hinv2 : c10t2.invB = true := hinv' (by decide)
    have hiff := rec_availabe_mem_iff c10t2 4 hinv2
      (fun nd hnd => (hpn nd hnd).1)
      (by
        intro s1 hs1
        rw [show c10t2.terminals = [defaultSeed] from rfl, List.mem_singleton] at hs1
        subst hs1
        rfl)
      (fun h => absurd h (childs_ne_nil_of_isEmpty_false (t := c10t2) rfl))
      rfl
      rfl
    intro s
    rw [hiff s, show c10t2.terminals = [defaultSeed] from rfl]
    simp only [List.mem_singleton]

/-- C10 witness: the non-empty trie over the identifier 2 (length 1). -/
theorem C10_default_seed_witness :
    (c10t.childs ≠ [] ∧ (['2'] : List Char) ∈ c10t.terminals ∧
      (['2'] : List Char).length ≠ 4) ∧
    ((∀ u : DigitTree, u.available none = u.available (some defaultSeed)) ∧
      (∃ p, c10t.available none = .error (.lengthMismatch p 4)) ∧
      (emptyTree.available none = .ok (c10t2, c10t2.rec_availabe) ∧
        (∀ s, s ∈ c10t2.terminals ↔ s = defaultSeed) ∧
        (∀ s, s ∈ c10t2.rec_availabe ↔ (s.length = 4 ∧ digitsOnly s = true ∧
          s ≠ defaultSeed ∧ s.get? 0 ≠ some ('0' : Char))))) :=
  ⟨⟨childs_ne_nil_of_isEmpty_false rfl, by decide, by decide⟩,
   C10_default_seed c10t (childs_ne_nil_of_isEmpty_false rfl) ['2']
     (by decide) (by decide)⟩
